import Mathlib

/-!
Verification development for the fc-view-runner repository.

The repository transforms NDJSON streams of FHIR resources into relational
tables, driven by ViewDefinitions.  This file gives a shallow embedding of
the core functions the specification talks about:

* `src/src/ndjsonProcessor.js` (final in-file version): `processColumns`,
  `evaluateWhereClauses`, `getReferenceKey`, `processResource`, and the
  per-line admission logic of `processNdjson` (`materializeResource` here);
  the earlier in-file version contributes `processNestedSelect`.
* `src/src/viewParser.js`: `validateViewDefinition`, `validateColumnName`,
  `extractConstants`, `extractSelects`, `parseViewDefinition`.
* `src/src/duckdbHandler.js` (final in-file version): the connection pool
  (`getConnection` / `releaseConnection`), `tableExists`,
  `mapFhirTypeToDuckDBType`, `createTable`, `upsertData`.

JavaScript values are modelled by `JsonVal` (with an explicit `undefined`
constructor for JavaScript `undefined`); JavaScript objects are association
lists with unique keys written via `setKey`.  FHIRPath evaluation is out of
scope for the repository (it delegates to the `fhirpath` library), so the
embedding abstracts it as a total function
`eval : JsonVal → String → List JsonVal`; `lookupEval` below instantiates it
with plain field lookup for concrete test inputs.  Database calls and their
failures are abstracted by boolean oracles; thrown JavaScript exceptions are
modelled with `Except JsErr`.
-/

namespace FCView

/-- JSON-ish JavaScript values.  `undefined` models JavaScript `undefined`
(distinct from `null`); numbers are modelled as integers, which is all the
claims need. -/
inductive JsonVal where
  | null : JsonVal
  | undefined : JsonVal
  | bool : Bool → JsonVal
  | num : Int → JsonVal
  | str : String → JsonVal
  | arr : List JsonVal → JsonVal
  | obj : List (String × JsonVal) → JsonVal

/-- JavaScript truthiness: `null`, `undefined`, `false`, `0` and the empty
string are falsy; every array and object (and everything else) is truthy. -/
def jsTruthy : JsonVal → Bool
  | .null => false
  | .undefined => false
  | .bool b => b
  | .num n => n != 0
  | .str s => s != ""
  | .arr _ => true
  | .obj _ => true

/-- Truthiness of an optional string field (e.g. `selectDef.forEach`):
absent (`undefined`) and the empty string are falsy. -/
def strOptTruthy : Option String → Bool
  | none => false
  | some s => s != ""

/-- `true` exactly on `JsonVal.null`; used for the JavaScript comparison
`value !== null` (note that `undefined !== null` holds in JavaScript). -/
def isNull : JsonVal → Bool
  | .null => true
  | _ => false

/-- `true` iff the value is the JavaScript string `s` (strict equality
against a string literal, as in `resourceData.resourceType !== resource`). -/
def isStrField (v : JsonVal) (s : String) : Bool :=
  match v with
  | .str t => t == s
  | _ => false

/-- A materialized row: a JavaScript object, i.e. an association list whose
keys are unique (all rows in this development are built from `[]` via
`setKey`, which preserves uniqueness). -/
abbrev Row := List (String × JsonVal)

/-- First-match association lookup, `row[k]` for a present key. -/
def lookupRow (r : Row) (k : String) : Option JsonVal :=
  (r.find? (fun p => p.1 == k)).map (fun p => p.2)

/-- `k in row`. -/
def hasKey (r : Row) (k : String) : Bool :=
  r.any (fun p => p.1 == k)

/-- JavaScript property assignment `row[k] = v`: overwrite the existing
entry in place, else append. -/
def setKey : Row → String → JsonVal → Row
  | [], k, v => [(k, v)]
  | p :: rest, k, v => if p.1 == k then (k, v) :: rest else p :: setKey rest k v

/-- Object spread `{ ...a, ...b }`: entries of `b` are assigned into `a`
in order. -/
def mergeRows (a b : Row) : Row :=
  b.foldl (fun acc p => setKey acc p.1 p.2) a

/-- `true` iff the list of strings has no duplicates (used for
column-name distinctness hypotheses). -/
def namesNodup : List String → Bool
  | [] => true
  | x :: xs => !(xs.contains x) && namesNodup xs

/-- Field access `o.k` on a JavaScript value: `undefined` unless `o` is an
object carrying the key. -/
def getField (v : JsonVal) (k : String) : JsonVal :=
  match v with
  | .obj fields => (lookupRow fields k).getD .undefined
  | _ => .undefined

/-- JavaScript errors thrown by the modelled code: `jsError` for
deliberately thrown `Error(...)` values, `jsTypeError` for runtime
`TypeError`s (and the one `ReferenceError`, see `upsertData`). -/
inductive JsErr where
  | jsError : String → JsErr
  | jsTypeError : String → JsErr

/-- Helper for `jsSplit`: accumulate the current segment. -/
def splitCharGo (c : Char) : List Char → String → List String
  | [], acc => [acc]
  | x :: xs, acc =>
    if x = c then acc :: splitCharGo c xs "" else splitCharGo c xs (acc.push x)

/-- JavaScript `s.split(c)` for a one-character separator (`String.splitOn`
of the standard library is extensionally the same on these inputs but is
defined by well-founded recursion, which blocks kernel evaluation). -/
def jsSplit (s : String) (c : Char) : List String :=
  splitCharGo c s.toList ""

/- ### Basic lemmas about rows -/

theorem setKey_lookup_self (r : Row) (k : String) (v : JsonVal) :
    lookupRow (setKey r k v) k = some v := by
  induction r with
  | nil => simp [setKey, lookupRow]
  | cons p rest ih =>
    by_cases h : p.1 = k
    · simp [setKey, h, lookupRow]
    · simp only [setKey, lookupRow] at *
      simp [h, List.find?, ih]

theorem setKey_lookup_ne (r : Row) (k k2 : String) (v : JsonVal) (h : k2 ≠ k) :
    lookupRow (setKey r k v) k2 = lookupRow r k2 := by
  have hkk : (k == k2) = false := by simp [Ne.symm h]
  induction r with
  | nil => simp [setKey, lookupRow, List.find?, hkk]
  | cons p rest ih =>
    by_cases hp : p.1 = k
    · simp only [setKey, hp, beq_self_eq_true, if_true]
      simp [lookupRow, List.find?, hp, hkk]
    · have hp' : (p.1 == k) = false := by simp [hp]
      simp only [setKey, hp', if_false]
      by_cases hk2 : p.1 = k2
      · simp [lookupRow, List.find?, hk2]
      · have hk2' : (p.1 == k2) = false := by simp [hk2]
        simpa [lookupRow, List.find?, hk2'] using ih

theorem mergeRows_lookup_notin (a : Row) (b : Row) (k : String)
    (h : ∀ q ∈ b, q.1 ≠ k) :
    lookupRow (mergeRows a b) k = lookupRow a k := by
  induction b generalizing a with
  | nil => simp [mergeRows]
  | cons q rest ih =>
    have hq : q.1 ≠ k := h q (List.mem_cons_self _ _)
    have hrest : ∀ p ∈ rest, p.1 ≠ k := fun p hp => h p (List.mem_cons_of_mem _ hp)
    show lookupRow (mergeRows (setKey a q.1 q.2) rest) k = lookupRow a k
    rw [ih _ hrest, setKey_lookup_ne _ _ _ _ (Ne.symm hq)]

theorem lookupRow_mem (r : Row) (k : String) (v : JsonVal)
    (h : lookupRow r k = some v) : (k, v) ∈ r := by
  induction r with
  | nil => simp [lookupRow] at h
  | cons p rest ih =>
    simp only [lookupRow, List.find?] at h
    by_cases hp : p.1 = k
    · simp only [hp, beq_self_eq_true] at h
      have : p = (k, v) := by
        cases p
        simp only [Option.map, Option.some.injEq] at h
        simp_all
      rw [← this]
      exact List.mem_cons_self _ _
    · have hp' : (p.1 == k) = false := by simp [hp]
      simp only [hp'] at h
      exact List.mem_cons_of_mem _ (ih (by simpa [lookupRow] using h))

/-- If `b` has pairwise-distinct keys and carries a non-null value, so does
`{ ...a, ...b }`. -/
theorem mergeRows_any_nonnull (a b : Row)
    (hnd : namesNodup (b.map (fun p => p.1)) = true)
    (hany : b.any (fun p => !isNull p.2) = true) :
    (mergeRows a b).any (fun p => !isNull p.2) = true := by
  induction b generalizing a with
  | nil => simp at hany
  | cons q rest ih =>
    simp only [List.map, namesNodup, Bool.and_eq_true] at hnd
    simp only [List.any_cons, Bool.or_eq_true] at hany
    show (mergeRows (setKey a q.1 q.2) rest).any (fun p => !isNull p.2) = true
    rcases hany with hq | hrest
    · -- the head of `b` is the non-null witness; its key is untouched by `rest`
      have hnotin : ∀ p ∈ rest, p.1 ≠ q.1 := by
        intro p hp hcon
        have hin : q.1 ∈ rest.map (fun p => p.1) := List.mem_map.mpr ⟨p, hp, hcon⟩
        have hnin : q.1 ∉ rest.map (fun p => p.1) := by simpa using hnd.1
        exact hnin hin
      have hlook : lookupRow (mergeRows (setKey a q.1 q.2) rest) q.1 = some q.2 := by
        rw [mergeRows_lookup_notin _ _ _ hnotin, setKey_lookup_self]
      have hmem := lookupRow_mem _ _ _ hlook
      exact List.any_eq_true.mpr ⟨(q.1, q.2), hmem, hq⟩
    · exact ih _ hnd.2 hrest

/- ### Where clauses (`evaluateWhereClauses`, ndjsonProcessor.js) -/

/-- A parsed where clause (`extractWhereClauses` in viewParser.js keeps
`path` and `description`). -/
structure WhereClause where
  path : String
  description : String := ""

/-- `evaluateWhereClauses(resource, whereClauses, context)`:
`whereClauses.every(w => { const result = evaluateFhirPath(resource, w.path, context);
return result && result.length > 0 && result[0] === true; })`.
`evaluateFhirPath` never throws (it catches and returns `[]`), so the
evaluator is abstracted as the total function `eval`; the result is always
an array, hence truthy. -/
def evaluateWhereClauses (eval : JsonVal → String → List JsonVal)
    (resource : JsonVal) (whereClauses : List WhereClause) : Bool :=
  whereClauses.all fun w =>
    match eval resource w.path with
    | [] => false
    | v :: _ =>
      match v with
      | .bool true => true
      | _ => false

/- ### `getReferenceKey` (final in-file version of ndjsonProcessor.js) -/

/-- The custom FHIRPath function `getReferenceKey(resourceType?)`.
`inputs` is the evaluation input collection, `resourceType` the optional
argument (`none` when called with arity 0).  Mirrors lines 280-343 of
`src/src/ndjsonProcessor.js`: only the first input is inspected; a
reference string is taken from a string input directly or from a truthy
`reference` property of an object input (the `input.reference.reference`
else-if in the source is unreachable and therefore not modelled); a
non-string reference makes `reference.split` throw, which the surrounding
try/catch turns into `[]`. -/
def getReferenceKey (inputs : List JsonVal) (resourceType : Option String) :
    List JsonVal :=
  match inputs with
  | [] => []
  | input :: _ =>
    let reference : Option JsonVal :=
      match input with
      | .str s => some (.str s)
      | .obj fields =>
        match lookupRow fields "reference" with
        | some v => if jsTruthy v then some v else none
        | none => none
      | _ => none
    match reference with
    | none => []
    | some r =>
      if !jsTruthy r then []
      else
        match r with
        | .str s =>
          match jsSplit s '/' with
          | [ty, id] =>
            let mismatch :=
              match resourceType with
              | some rt => rt != "" && ty != rt
              | none => false
            if mismatch then [] else [.str id]
          | _ => []
        | _ => []

/- ### Row materializer (final in-file version of ndjsonProcessor.js) -/

/-- A parsed column descriptor as handed to the materializer. -/
structure Column where
  path : String
  name : String
  collection : Bool := false

/-- The value assigned to a column: `result = [context.$this]` when the
path is the literal `$this`, else the evaluation of the path; a collection
column keeps the whole list, otherwise the first element or `null`. -/
def colValue (eval : JsonVal → String → List JsonVal) (resource : JsonVal)
    (ctxThis : Option JsonVal) (c : Column) : JsonVal :=
  let result :=
    if c.path == "$this" then [ctxThis.getD JsonVal.undefined]
    else eval resource c.path
  if c.collection then .arr result
  else
    match result with
    | [] => .null
    | v :: _ => v

/-- The loop of `processColumns` (lines 393-422): assign each column value
into the row and latch `hasData` whenever the just-assigned value is not
`null` (JavaScript `row[col.name] !== null`, so `undefined` and the empty
array count as data). -/
def processColumnsGo (eval : JsonVal → String → List JsonVal)
    (resource : JsonVal) (ctxThis : Option JsonVal) :
    List Column → Row → Bool → Option Row
  | [], row, hasData => if hasData then some row else none
  | c :: cs, row, hasData =>
    let v := colValue eval resource ctxThis c
    processColumnsGo eval resource ctxThis cs (setKey row c.name v)
      (hasData || !isNull v)

/-- `processColumns(resource, columns, context)`: returns the row when some
column produced data and `null` (here `none`) when every column was
`null`. -/
def processColumns (eval : JsonVal → String → List JsonVal)
    (resource : JsonVal) (cols : List Column) (ctxThis : Option JsonVal) :
    Option Row :=
  processColumnsGo eval resource ctxThis cols [] false

/-- One entry of the `select` array as read by `processResource`
(lines 542-602).  That function only inspects `selectDef.forEach` and
`selectDef.column`; `forEachOrNull` is carried in the data model but never
read by it, and nested `select` entries are ignored as well. -/
structure SelectDef where
  forEach : Option String := none
  forEachOrNull : Option String := none
  column : Option (List Column) := none

/-- `const baseRow = columns ? processColumns(resourceData, columns, context) : {}`.
`none` models an absent `columns` argument (falsy, so the base row is the
empty object); an empty or all-null column list makes `processColumns`
return `null` (`none`). -/
def baseRowOf (eval : JsonVal → String → List JsonVal) (resource : JsonVal)
    (columns : Option (List Column)) : Option Row :=
  match columns with
  | none => some []
  | some cols => processColumns eval resource cols none

/-- The first loop of `processResource`: merge the columns of every
non-`forEach` select definition into `mainRow`, starting from
`{ ...baseRow }` (spreading `null` yields the empty object). -/
def buildMainRow (eval : JsonVal → String → List JsonVal) (resource : JsonVal)
    (baseRow : Option Row) (sel : List SelectDef) : Row :=
  sel.foldl
    (fun acc sd =>
      if strOptTruthy sd.forEach then acc
      else
        match sd.column with
        | some cols =>
          match processColumns eval resource cols none with
          | some r => mergeRows acc r
          | none => acc
        | none => acc)
    (baseRow.getD [])

/-- The inner loop of the `forEach` pass: for each truthy element, evaluate
the branch columns against the element (with `$this` bound to it) and push
`{ ...mainRow, ...nestedRow }` when the nested row is non-null and
non-empty.  A `forEach` select definition without a `column` array would
make `processColumns` throw (`Invalid columns`), modelled as an error. -/
def processForEachElems (eval : JsonVal → String → List JsonVal)
    (mainRow : Row) (cols? : Option (List Column)) :
    List JsonVal → List Row → Except JsErr (List Row)
  | [], acc => .ok acc
  | el :: restEls, acc =>
    if jsTruthy el then
      match cols? with
      | none => .error (.jsError "Invalid columns: columns must be an array")
      | some cols =>
        match processColumns eval el cols (some el) with
        | some nr =>
          if nr.length > 0 then
            processForEachElems eval mainRow cols? restEls
              (acc ++ [mergeRows mainRow nr])
          else processForEachElems eval mainRow cols? restEls acc
        | none => processForEachElems eval mainRow cols? restEls acc
    else processForEachElems eval mainRow cols? restEls acc

/-- The second loop of `processResource`: run the `forEach` pass of every
select definition whose `forEach` is truthy, accumulating result rows in
order. -/
def processForEachDefs (eval : JsonVal → String → List JsonVal)
    (resource : JsonVal) (mainRow : Row) :
    List SelectDef → List Row → Except JsErr (List Row)
  | [], acc => .ok acc
  | sd :: restDefs, acc =>
    if strOptTruthy sd.forEach then
      match processForEachElems eval mainRow sd.column
          (eval resource (sd.forEach.getD "")) acc with
      | .ok acc' => processForEachDefs eval resource mainRow restDefs acc'
      | .error e => .error e
    else processForEachDefs eval resource mainRow restDefs acc

/-- `processResource(resourceData, { columns, select, context })`
(lines 542-602).  With no select definitions the base row is returned when
non-empty — but `Object.keys(baseRow)` throws a `TypeError` when
`processColumns` returned `null`.  Otherwise the main row is assembled,
the `forEach` pass runs, and when it produced nothing and the main row is
non-empty, the main row is emitted as a fallback. -/
def processResource (eval : JsonVal → String → List JsonVal)
    (resourceData : JsonVal) (columns : Option (List Column))
    (select : Option (List SelectDef)) : Except JsErr (List Row) :=
  let baseRow := baseRowOf eval resourceData columns
  match select with
  | none =>
    match baseRow with
    | none => .error (.jsTypeError "Cannot convert undefined or null to object")
    | some r => .ok (if r.length > 0 then [r] else [])
  | some sel =>
    if sel.isEmpty then
      match baseRow with
      | none => .error (.jsTypeError "Cannot convert undefined or null to object")
      | some r => .ok (if r.length > 0 then [r] else [])
    else
      let mainRow := buildMainRow eval resourceData baseRow sel
      match processForEachDefs eval resourceData mainRow sel [] with
      | .error e => .error e
      | .ok resultRows =>
        .ok (if resultRows.isEmpty && mainRow.length > 0 then [mainRow]
             else resultRows)

/-- The admitted-resource path of the per-line handler of `processNdjson`
(final version): skip silently unless `resourceData.resourceType` strictly
equals the expected resource type, admit through the where filter (an
absent `whereClauses` admits unconditionally), then materialize through
`processResource`.  Errors thrown by `processResource` are caught by the
handler (counted as invalid records, producing no rows); they are
propagated here so the claims can talk about them. -/
def materializeResource (eval : JsonVal → String → List JsonVal)
    (resourceData : JsonVal) (resourceType : String)
    (whereClauses : Option (List WhereClause))
    (columns : Option (List Column)) (select : Option (List SelectDef)) :
    Except JsErr (List Row) :=
  if !(isStrField (getField resourceData "resourceType") resourceType) then
    .ok []
  else
    let isIncluded :=
      match whereClauses with
      | some ws => evaluateWhereClauses eval resourceData ws
      | none => true
    if isIncluded then processResource eval resourceData columns select
    else .ok []

/- ### `processNestedSelect` (earlier in-file version of ndjsonProcessor.js,
lines 105-143) -/

/-- A nested select node as consumed by `processNestedSelect`. -/
inductive NSel where
  | mk : Option String → Option String → Option (List Column) →
      Option (List NSel) → NSel

/-- `nestedSelect.forEach`. -/
def NSel.forEach : NSel → Option String
  | .mk fe _ _ _ => fe

/-- `nestedSelect.forEachOrNull`. -/
def NSel.forEachOrNull : NSel → Option String
  | .mk _ fen _ _ => fen

/-- `nestedSelect.column`. -/
def NSel.column : NSel → Option (List Column)
  | .mk _ _ cols _ => cols

/-- `nestedSelect.select`. -/
def NSel.select : NSel → Option (List NSel)
  | .mk _ _ _ sel => sel

/-- The per-element row of `processNestedSelect` (lines 118-128): each
column evaluates against the element when the element is truthy and to `[]`
otherwise (so the substituted `null` element of `forEachOrNull` yields
`null`, or the empty array for a collection column). -/
def nselRow (eval : JsonVal → String → List JsonVal) (element : JsonVal)
    (cols? : Option (List Column)) : Row :=
  match cols? with
  | none => []
  | some cols =>
    cols.foldl
      (fun r c =>
        let result := if jsTruthy element then eval element c.path else []
        setKey r c.name
          (if c.collection then .arr result
           else
             match result with
             | [] => JsonVal.null
             | v :: _ => v))
      []

/-- `processNestedSelect(resource, nestedSelect, context)`, written with an
explicit recursion-depth budget (`fuel`) because the recursion descends
through `List` fields of the nested inductive `NSel`.  Every call strictly
decreases the fuel, and `sizeOf` of the node dominates the recursion depth,
so `processNestedSelect` below (which supplies `sizeOf ns` as fuel) never
reaches the fuel-exhausted branch. -/
def pnsFuel (eval : JsonVal → String → List JsonVal) :
    Nat → JsonVal → NSel → List Row
  | 0, _, _ => []
  | fuel + 1, resource, ns =>
    let parentElements : List JsonVal :=
      if strOptTruthy ns.forEach then eval resource (ns.forEach.getD "")
      else if strOptTruthy ns.forEachOrNull then
        let r := eval resource (ns.forEachOrNull.getD "")
        if r.isEmpty then [JsonVal.null] else r
      else []
    parentElements.foldl
      (fun rows element =>
        let row := nselRow eval element ns.column
        match ns.select with
        | some children =>
          rows ++
            children.foldl
              (fun acc child =>
                acc ++
                  (pnsFuel eval fuel
                      (if jsTruthy element then element else resource)
                      child).map
                    (fun childRow => mergeRows row childRow))
              []
        | none => rows ++ [row])
      []

mutual

/-- Number of nodes of a nested select tree (computable recursion-depth
bound for `pnsFuel`). -/
def nselSize : NSel → Nat
  | .mk _ _ _ none => 1
  | .mk _ _ _ (some children) => 1 + nselListSize children

/-- Total node count of a list of nested select trees. -/
def nselListSize : List NSel → Nat
  | [] => 0
  | c :: rest => nselSize c + nselListSize rest

end

/-- `processNestedSelect` with an always-sufficient fuel budget (the node
count dominates the recursion depth). -/
def processNestedSelect (eval : JsonVal → String → List JsonVal)
    (resource : JsonVal) (ns : NSel) : List Row :=
  pnsFuel eval (nselSize ns) resource ns

/- ### ViewDefinition compiler (`src/src/viewParser.js`) -/

/-- `validateColumnName`: the identifier regex
`^[A-Za-z][A-Za-z0-9_]*$`. -/
def isValidColumnName (s : String) : Bool :=
  match s.toList with
  | [] => false
  | c :: cs => c.isAlpha && cs.all (fun ch => ch.isAlpha || ch.isDigit || ch == '_')

/-- A column tag (e.g. `ansi/type`). -/
structure Tag where
  name : String
  value : String

/-- A raw column of a ViewDefinition select node.  Optional fields model
absent JSON attributes. -/
structure ColumnIn where
  path : String
  name : String
  type : Option String := none
  description : Option String := none
  collection : Option Bool := none
  tag : Option (List Tag) := none

/-- A raw select node: `column[]`, nested `select[]`, `forEach`,
`forEachOrNull`, `unionAll[]`. -/
inductive SelectNode where
  | mk : Option (List ColumnIn) → Option (List SelectNode) →
      Option String → Option String → Option (List SelectNode) → SelectNode

/-- `select.column`. -/
def SelectNode.column : SelectNode → Option (List ColumnIn)
  | .mk c _ _ _ _ => c

/-- `select.select`. -/
def SelectNode.select : SelectNode → Option (List SelectNode)
  | .mk _ s _ _ _ => s

/-- `select.forEach`. -/
def SelectNode.forEach : SelectNode → Option String
  | .mk _ _ fe _ _ => fe

/-- `select.forEachOrNull`. -/
def SelectNode.forEachOrNull : SelectNode → Option String
  | .mk _ _ _ fen _ => fen

/-- `select.unionAll`. -/
def SelectNode.unionAll : SelectNode → Option (List SelectNode)
  | .mk _ _ _ _ ua => ua

/-- The `select` field of a ViewDefinition as seen through JavaScript
checks: it can be absent (`undefined`), present but falsy (`falsyNonArray`,
e.g. `0` or `""`), present, truthy and not an array (`truthyNonArray`), or
an array of select nodes (arrays are always truthy, even empty ones). -/
inductive SelField where
  | undefined : SelField
  | falsyNonArray : SelField
  | truthyNonArray : SelField
  | arr : List SelectNode → SelField

/-- Truthiness of the `select` field. -/
def SelField.truthy : SelField → Bool
  | .undefined => false
  | .falsyNonArray => false
  | .truthyNonArray => true
  | .arr _ => true

/-- `Array.isArray(select)`. -/
def SelField.isArray : SelField → Bool
  | .arr _ => true
  | _ => false

/-- A `where` entry of a ViewDefinition. -/
structure WhereIn where
  path : String
  description : Option String := none

/-- A ViewDefinition as consumed by `parseViewDefinition`.  A constant
entry is a JavaScript object, i.e. an ordered key/value list (its keys are
scanned for the `value` prefix).  Metadata-only fields are carried as
`JsonVal`s defaulting to `undefined`. -/
structure ViewDefinition where
  name : JsonVal := .undefined
  status : JsonVal := .undefined
  resource : JsonVal := .undefined
  select : SelField := .undefined
  constant : Option (List (List (String × JsonVal))) := none
  whereField : Option (List WhereIn) := none
  url : JsonVal := .undefined
  identifier : JsonVal := .undefined
  title : JsonVal := .undefined
  experimental : JsonVal := .undefined
  publisher : JsonVal := .undefined
  description : JsonVal := .undefined
  fhirVersion : JsonVal := .undefined

/-- `validateViewDefinition`: each required field is checked for
truthiness in order (`!viewDefinition[field]` throws), then `select` must
be an array.  Note that a present select array — even an *empty* one — is
truthy and passes both checks; non-emptiness is never checked. -/
def validateViewDefinition (vd : ViewDefinition) : Except JsErr Unit :=
  if !jsTruthy vd.name then
    .error (.jsError "Invalid ViewDefinition: Missing required field name")
  else if !jsTruthy vd.status then
    .error (.jsError "Invalid ViewDefinition: Missing required field status")
  else if !jsTruthy vd.resource then
    .error (.jsError "Invalid ViewDefinition: Missing required field resource")
  else if !vd.select.truthy then
    .error (.jsError "Invalid ViewDefinition: Missing required field select")
  else if !vd.select.isArray then
    .error (.jsError "Invalid ViewDefinition: select must be an array")
  else .ok ()

/-- An extracted constant `{name, value, type}`. -/
structure ConstOut where
  name : JsonVal
  value : JsonVal
  type : String

/-- Map a fallible function over a list, stopping at the first thrown
error (the behaviour of a JavaScript `map`/`forEach` whose callback
throws). -/
def mapME {α β : Type} (f : α → Except JsErr β) : List α → Except JsErr (List β)
  | [] => .ok []
  | a :: as =>
    match f a with
    | .error e => .error e
    | .ok b =>
      match mapME f as with
      | .error e => .error e
      | .ok bs => .ok (b :: bs)

/-- Conversion of one constant entry: the value key is the first attribute
whose name starts with `value`; when none exists, `valueKey.replace(...)`
dereferences `undefined` and throws a `TypeError`.
(`valueKey.replace("value", "")` replaces the first occurrence, which for
a key starting with `value` is exactly `drop 5`.) -/
def extractConstant (entry : List (String × JsonVal)) : Except JsErr ConstOut :=
  match (entry.map (fun p => p.1)).find? (fun k => k.startsWith "value") with
  | none => .error (.jsTypeError "Cannot read properties of undefined")
  | some valueKey =>
    .ok { name := (lookupRow entry "name").getD .undefined,
          value := (lookupRow entry valueKey).getD .undefined,
          type := (valueKey.drop 5).toLower }

/-- `extractConstants`: an absent `constant` field yields `[]`. -/
def extractConstants (cs : Option (List (List (String × JsonVal)))) :
    Except JsErr (List ConstOut) :=
  match cs with
  | none => .ok []
  | some entries => mapME extractConstant entries

/-- A column produced by `extractSelects` (defaults applied, stamped with
its `selectPath`). -/
structure ColumnOut where
  path : String
  name : String
  type : String
  description : String
  collection : Bool
  tags : List Tag
  selectPath : String

/-- A nested-select record produced by `extractSelects`.  When the node
has no nested `select`, the spread of `{}` contributes no `columns` /
`nestedSelects` keys; that absence is modelled by empty lists. -/
inductive NestedOut where
  | mk : String → Option String → Option String → List ColumnOut →
      List NestedOut → NestedOut

/-- The columns/nested pair returned by `extractSelects`. -/
structure ExtractOut where
  columns : List ColumnOut
  nestedSelects : List NestedOut

/-- JavaScript `x || d` for optional strings (`""` is falsy). -/
def jsOrString (o : Option String) (d : String) : String :=
  match o with
  | some s => if s == "" then d else s
  | none => d

/-- Validate and convert one raw column (the `column[]` loop of
`extractSelects`). -/
def extractColumn (currentPath : String) (c : ColumnIn) :
    Except JsErr ColumnOut :=
  if isValidColumnName c.name then
    .ok { path := c.path, name := c.name, type := jsOrString c.type "string",
          description := jsOrString c.description "",
          collection := c.collection.getD false, tags := c.tag.getD [],
          selectPath := currentPath }
  else
    .error (.jsError ("Invalid column name: " ++ c.name ++
      ". Must start with a letter and contain only letters, numbers, and underscores."))

/-- The dotted positional path of the node at index `idx` under
`parentPath`. -/
def selPath (parentPath : String) (idx : Nat) : String :=
  if parentPath == "" then toString idx
  else parentPath ++ "." ++ toString idx

/-- The `column[]` part of one `extractSelects` step: validate and convert
the node's columns (nothing when the field is absent). -/
def extractNodeCols (currentPath : String) (colOpt : Option (List ColumnIn)) :
    Except JsErr (List ColumnOut) :=
  match colOpt with
  | some cols => mapME (extractColumn currentPath) cols
  | none => .ok []

/-- The nested-select part of one `extractSelects` step: when the node is
structural (`select`/`forEach`/`forEachOrNull` truthy), push one nested
record carrying the recursive extraction of the nested `select`
(`childRes`; passed in by the caller, and ignored when no nested `select`
is present). -/
def extractNodeNested (currentPath : String) (s : SelectNode)
    (childRes : Except JsErr ExtractOut) : Except JsErr (List NestedOut) :=
  if s.select.isSome || strOptTruthy s.forEach ||
      strOptTruthy s.forEachOrNull then
    match s.select with
    | some _ =>
      match childRes with
      | .error e => .error e
      | .ok r =>
        .ok [NestedOut.mk currentPath s.forEach s.forEachOrNull
          r.columns r.nestedSelects]
    | none =>
      .ok [NestedOut.mk currentPath s.forEach s.forEachOrNull [] []]
  else .ok []

/-- `extractSelects(selects, parentPath)` one list step at a time, with a
recursion-depth budget because the recursion descends through `List`
fields of the nested inductive `SelectNode`.  Every recursive call
decrements the fuel, and `selListSize` below strictly dominates the number
of decrements along any descent, so `extractSelects` (which supplies it)
never reaches the fuel-exhausted branch. -/
def extractSelectsF : Nat → List SelectNode → String → Nat →
    Except JsErr ExtractOut
  | _, [], _, _ => .ok ⟨[], []⟩
  | 0, _ :: _, _, _ => .ok ⟨[], []⟩
  | fuel + 1, s :: rest, parentPath, idx =>
    match extractNodeCols (selPath parentPath idx) s.column with
    | .error e => .error e
    | .ok colsOut =>
      match extractNodeNested (selPath parentPath idx) s
          (match s.select with
           | some children =>
             extractSelectsF fuel children (selPath parentPath idx) 0
           | none => .ok ⟨[], []⟩) with
      | .error e => .error e
      | .ok nested =>
        match (match s.unionAll with
               | some us =>
                 extractSelectsF fuel us (selPath parentPath idx ++ ".union") 0
               | none => (.ok ⟨[], []⟩ : Except JsErr ExtractOut)) with
        | .error e => .error e
        | .ok unionPart =>
          match extractSelectsF fuel rest parentPath (idx + 1) with
          | .error e => .error e
          | .ok restOut =>
            .ok ⟨colsOut ++ unionPart.columns ++ restOut.columns,
                 nested ++ unionPart.nestedSelects ++ restOut.nestedSelects⟩

mutual

/-- Node count of a select tree (a recursion-depth bound for
`extractSelectsF`). -/
def selSize : SelectNode → Nat
  | .mk _ sel _ _ ua =>
    1 + (match sel with
         | none => 0
         | some children => selListSize children)
      + (match ua with
         | none => 0
         | some us => selListSize us)

/-- Total weight of a list of select nodes: each element contributes its
size plus one list step. -/
def selListSize : List SelectNode → Nat
  | [] => 1
  | s :: rest => 1 + selSize s + selListSize rest

end

/-- `extractSelects` with an always-sufficient fuel budget. -/
def extractSelects (sels : List SelectNode) (parentPath : String) :
    Except JsErr ExtractOut :=
  extractSelectsF (selListSize sels) sels parentPath 0

/-- `true` iff every column name in the select tree (including nested and
`unionAll` nodes) matches the identifier regex; mirrors the fuel pattern
of `extractSelectsF`. -/
def allNamesValidF : Nat → List SelectNode → Bool
  | _, [] => true
  | 0, _ :: _ => true
  | fuel + 1, s :: rest =>
    (match s.column with
     | some cols => cols.all (fun c => isValidColumnName c.name)
     | none => true) &&
    (match s.select with
     | some children => allNamesValidF fuel children
     | none => true) &&
    (match s.unionAll with
     | some us => allNamesValidF fuel us
     | none => true) &&
    allNamesValidF fuel rest

/-- The metadata record copied by `extractMetadata`. -/
structure Metadata where
  url : JsonVal
  identifier : JsonVal
  name : JsonVal
  title : JsonVal
  status : JsonVal
  experimental : JsonVal
  publisher : JsonVal
  description : JsonVal
  resource : JsonVal
  fhirVersion : JsonVal

/-- `extractMetadata`. -/
def extractMetadata (vd : ViewDefinition) : Metadata :=
  { url := vd.url, identifier := vd.identifier, name := vd.name,
    title := vd.title, status := vd.status,
    experimental := vd.experimental, publisher := vd.publisher,
    description := vd.description, resource := vd.resource,
    fhirVersion := vd.fhirVersion }

/-- `extractWhereClauses`. -/
def extractWhereClauses (vd : ViewDefinition) : List WhereClause :=
  (vd.whereField.getD []).map fun w =>
    { path := w.path, description := jsOrString w.description "" }

/-- The parsed ViewDefinition components. -/
structure ParsedView where
  metadata : Metadata
  constants : List ConstOut
  columns : List ColumnOut
  nestedSelects : List NestedOut
  whereClauses : List WhereClause

/-- `parseViewDefinition`: validate, then extract metadata, constants,
selects and where clauses (in source order — constants are extracted
before the select tree, so a malformed constant throws before column
validation runs). -/
def parseViewDefinition (vd : ViewDefinition) : Except JsErr ParsedView :=
  match validateViewDefinition vd with
  | .error e => .error e
  | .ok _ =>
    let metadata := extractMetadata vd
    match extractConstants vd.constant with
    | .error e => .error e
    | .ok constants =>
      match (match vd.select with
             | .arr nodes => extractSelects nodes ""
             | _ => .error
                 (.jsError "unreachable: select was validated to be an array")) with
      | .error e => .error e
      | .ok eo =>
        .ok { metadata := metadata, constants := constants,
              columns := eo.columns, nestedSelects := eo.nestedSelects,
              whereClauses := extractWhereClauses vd }

/-- `true` iff the computation did not throw. -/
def isOkE {α : Type} : Except JsErr α → Bool
  | .ok _ => true
  | .error _ => false

/- ### Tabular persistence engine (final in-file version of
`src/src/duckdbHandler.js`) -/

/-- `connectionPool.pop()`: remove and return the *last* element of the
pool array (connections are plain identifiers here). -/
def poolPop : List Nat → Option (Nat × List Nat)
  | [] => none
  | x :: rest =>
    match poolPop rest with
    | none => some (x, [])
    | some (c, rest') => some (c, x :: rest')

/-- `getConnection()`: throws when the pool is empty, otherwise pops a
connection — it never waits. -/
def getConnection (pool : List Nat) : Except JsErr (Nat × List Nat) :=
  match poolPop pool with
  | none => .error (.jsError "No connections available in the pool")
  | some cp => .ok cp

/-- `releaseConnection(connection)`: `connectionPool.push(connection)`. -/
def releaseConnection (pool : List Nat) (c : Nat) : List Nat := pool ++ [c]

/-- A column of a created table schema: either the surrogate
`id INTEGER PRIMARY KEY DEFAULT nextval(<seq>)` column or a plain typed
column (`isArray` for `collection` columns, stored as `<type>[]`). -/
inductive ColSpec where
  | idCol : String → ColSpec
  | plain : String → String → Bool → ColSpec

/-- The database state visible to the table manager: created tables with
their schemas, and created sequences. -/
structure DBState where
  tables : List (String × List ColSpec)
  sequences : List String

/-- A column descriptor handed to `createTable` (the parser guarantees
`type` defaults to `"string"`). -/
structure TableColumn where
  name : String
  type : String := "string"
  collection : Bool := false
  tags : List Tag := []

/-- `mapFhirTypeToDuckDBType(fhirType, tags)`: an `ansi/type` tag
overrides; otherwise the FHIR-to-DuckDB map with `VARCHAR` default. -/
def mapFhirTypeToDuckDBType (fhirType : String) (tags : List Tag) : String :=
  match tags.find? (fun t => t.name == "ansi/type") with
  | some t => t.value
  | none =>
    if fhirType == "boolean" then "BOOLEAN"
    else if fhirType == "integer" then "INTEGER"
    else if fhirType == "decimal" then "DOUBLE"
    else if fhirType == "date" then "DATE"
    else if fhirType == "dateTime" then "TIMESTAMP"
    else if fhirType == "string" then "VARCHAR"
    else if fhirType == "uri" then "VARCHAR"
    else if fhirType == "code" then "VARCHAR"
    else if fhirType == "markdown" then "VARCHAR"
    else if fhirType == "id" then "VARCHAR"
    else if fhirType == "url" then "VARCHAR"
    else if fhirType == "uuid" then "VARCHAR"
    else if fhirType == "base64Binary" then "BLOB"
    else if fhirType == "instant" then "TIMESTAMP"
    else if fhirType == "time" then "TIME"
    else if fhirType == "positiveInt" then "INTEGER"
    else if fhirType == "unsignedInt" then "INTEGER"
    else if fhirType == "integer64" then "BIGINT"
    else "VARCHAR"

/-- `tableExists(tableName)`: acquire a connection, query
`information_schema.tables` (`queryFails` models a database error; the
answer itself comes from the modelled state), release in `finally`. -/
def tableExistsOp (pool : List Nat) (db : DBState) (queryFails : Bool)
    (tableName : String) : Except JsErr Bool × List Nat :=
  match getConnection pool with
  | .error e => (.error e, pool)
  | .ok (c, p') =>
    if queryFails then (.error (.jsError "database error"), releaseConnection p' c)
    else (.ok (db.tables.any (fun p => p.1 == tableName)),
          releaseConnection p' c)

/-- The outcome of a `createTable` call. -/
structure CreateOutcome where
  result : Except JsErr Unit
  pool : List Nat
  db : DBState

/-- `createTable(tableName, columns)`: acquire a connection (outside the
try, so an empty pool throws without touching anything), call
`tableExists` (which acquires a *second* connection), and on a fresh table
create the sequence `<tableName>_id_seq` and the table whose first column
is the surrogate `id` primary key defaulting to the next sequence value,
followed by the declared columns in order (collection columns as array
types).  An existing table skips creation.  The held connection is
released in `finally` on every path; `seqFails`/`createFails` model
database errors of the two run statements (note a failure between the two
leaves the sequence behind, as in the source). -/
def createTable (pool : List Nat) (db : DBState) (tableName : String)
    (cols : List TableColumn) (existsQueryFails seqFails createFails : Bool) :
    CreateOutcome :=
  match getConnection pool with
  | .error e => ⟨.error e, pool, db⟩
  | .ok (c, p') =>
    match tableExistsOp p' db existsQueryFails tableName with
    | (.error e, p2) => ⟨.error e, releaseConnection p2 c, db⟩
    | (.ok true, p2) => ⟨.ok (), releaseConnection p2 c, db⟩
    | (.ok false, p2) =>
      if seqFails then ⟨.error (.jsError "database error"),
        releaseConnection p2 c, db⟩
      else
        let db1 : DBState :=
          { db with sequences := db.sequences ++ [tableName ++ "_id_seq"] }
        if createFails then ⟨.error (.jsError "database error"),
          releaseConnection p2 c, db1⟩
        else
          ⟨.ok (), releaseConnection p2 c,
           { db1 with
              tables := db1.tables ++
                [(tableName,
                  ColSpec.idCol (tableName ++ "_id_seq") ::
                    cols.map (fun col =>
                      ColSpec.plain col.name
                        (mapFhirTypeToDuckDBType col.type col.tags)
                        col.collection))] }⟩

/-- The stored contents of one destination table: its schema column names
(in order, including `id`) and the inserted rows (values of the non-`id`
columns; the surrogate `id` is sequence-generated). -/
structure TableState where
  schemaColumns : List String
  storedRows : List (List JsonVal)

/-- The result object of `upsertData`: `{inserted, updated, errors}` —
the source returns no `deleted` count, and never increments `updated`. -/
structure UpsertResult where
  inserted : Nat
  updated : Nat
  errors : Nat

/-- The loop state of the per-row insert pass. -/
structure UpsertLoopState where
  pool : List Nat
  inserted : Nat
  errors : Nat
  stored : List (List JsonVal)

/-- The per-row insert pass of `upsertData` (lines 375-412), processed in
row order: the source slices `rows` into `config.batchSize` chunks run
under the bounded limiter, which with the serial limiter visits rows in
order — the slicing affects only logging.  Each row: acquire a connection
(an empty pool throws; the `catch` then increments `errors` and crashes
with a `ReferenceError` on the out-of-scope `values`), skip rows with a
falsy resource key (`errors`), bind missing/undefined columns to `null`,
insert (a failure increments `errors` and continues), and release the
connection in `finally` on every path. -/
def upsertRows (allCols : List String) (resourceKey : String)
    (insertFails : List JsonVal → Bool) :
    List Row → UpsertLoopState → Except JsErr Unit × UpsertLoopState
  | [], st => (.ok (), st)
  | row :: rest, st =>
    match getConnection st.pool with
    | .error _ =>
      (.error (.jsTypeError "ReferenceError: values is not defined"),
       { st with errors := st.errors + 1 })
    | .ok (c, p') =>
      if !(jsTruthy ((lookupRow row resourceKey).getD .undefined)) then
        upsertRows allCols resourceKey insertFails rest
          { st with pool := releaseConnection p' c, errors := st.errors + 1 }
      else
        let values := allCols.map fun col =>
          match lookupRow row col with
          | some v =>
            match v with
            | .undefined => JsonVal.null
            | _ => v
          | none => JsonVal.null
        if insertFails values then
          upsertRows allCols resourceKey insertFails rest
            { st with pool := releaseConnection p' c, errors := st.errors + 1 }
        else
          upsertRows allCols resourceKey insertFails rest
            { st with pool := releaseConnection p' c,
                      inserted := st.inserted + 1,
                      stored := st.stored ++ [values] }

/-- The outcome of an `upsertData` call. -/
structure UpsertOutcome where
  result : Except JsErr UpsertResult
  pool : List Nat
  table : TableState

/-- `upsertData(tableName, rows, resourceKey)` (lines 335-422): an empty
batch returns zeros; otherwise a connection is acquired to introspect the
table schema — *without* a `try`/`finally`, so a failing introspection
query (`schemaQueryFails`) propagates the error while the connection is
never released — then released, the non-`id` columns are taken, and the
per-row insert pass runs.  Rows are only ever *inserted*: nothing is
deleted, `updated` stays `0`, and the result carries no `deleted` count. -/
def upsertData (pool : List Nat) (table : TableState) (rows : List Row)
    (resourceKey : String) (schemaQueryFails : Bool)
    (insertFails : List JsonVal → Bool) : UpsertOutcome :=
  if rows.isEmpty then ⟨.ok ⟨0, 0, 0⟩, pool, table⟩
  else
    match getConnection pool with
    | .error e => ⟨.error e, pool, table⟩
    | .ok (c, p') =>
      if schemaQueryFails then ⟨.error (.jsError "database error"), p', table⟩
      else
        let pool2 := releaseConnection p' c
        let allCols := table.schemaColumns.filter (fun col => col != "id")
        match upsertRows allCols resourceKey insertFails rows
            ⟨pool2, 0, 0, []⟩ with
        | (.error e, st) =>
          ⟨.error e, st.pool,
           { table with storedRows := table.storedRows ++ st.stored }⟩
        | (.ok _, st) =>
          ⟨.ok ⟨st.inserted, 0, st.errors⟩, st.pool,
           { table with storedRows := table.storedRows ++ st.stored }⟩

/-- `true` iff every constant entry carries an attribute whose name starts
with `value` (the condition under which `extractConstants` does not
throw). -/
def constantsOk : Option (List (List (String × JsonVal))) → Bool
  | none => true
  | some entries =>
    entries.all fun e => (e.map (fun p => p.1)).any (fun k => k.startsWith "value")

/- ###### Concrete evaluation fixtures (used by counterexamples and witnesses) -/

/-- A concrete FHIRPath evaluator for test inputs: a path is interpreted as
a plain field name; a field holding an array contributes its elements to
the output collection (as the fhirpath library does), any other present
field contributes a singleton, and everything else evaluates to `[]`. -/
def lookupEval : JsonVal → String → List JsonVal := fun r p =>
  match r with
  | .obj fields =>
    match lookupRow fields p with
    | some (.arr xs) => xs
    | some v => [v]
    | none => []
  | _ => []

/-- An evaluator returning the empty collection on every path. -/
def emptyEval : JsonVal → String → List JsonVal := fun _ _ => []

/-- `true` iff the value is `null` or the empty array (the two values a
`forEachOrNull` branch assigns to its columns on an empty evaluation). -/
def nullOrEmptyArr : JsonVal → Bool
  | .null => true
  | .arr [] => true
  | _ => false

/-- Column `{path: "id", name: "patient_id"}`. -/
def patientIdCol : Column := { path := "id", name := "patient_id" }

/-- Column `{path: "gender", name: "gender"}`. -/
def genderCol : Column := { path := "gender", name := "gender" }

/-- Column `{path: "line", name: "street"}`. -/
def streetCol : Column := { path := "line", name := "street" }

/-- Column `{path: "city", name: "city"}`. -/
def cityCol : Column := { path := "city", name := "city" }

/-- A Patient with no `address` field (the fixture of the repository test
"should handle patient with no addresses"). -/
def c2Resource : JsonVal :=
  .obj [("resourceType", .str "Patient"), ("id", .str "1"),
        ("gender", .str "male")]

/-- The declared column list of the C2 view (the pipeline passes the
flattened column list of all select definitions). -/
def c2Columns : List Column := [patientIdCol, genderCol, streetCol, cityCol]

/-- The C2 select tree: one plain column branch and one `forEach` over
`address`. -/
def c2Select : List SelectDef :=
  [{ column := some [patientIdCol, genderCol] },
   { forEach := some "address", column := some [streetCol, cityCol] }]

/-- The row the C2 input actually produces. -/
def c2Row : Row :=
  [("patient_id", .str "1"), ("gender", .str "male"),
   ("street", .null), ("city", .null)]

/-- A select definition with an empty-evaluating `forEach`, for the C2
witness. -/
def c2wSelect : List SelectDef :=
  [{ forEach := some "address", column := some [cityCol] }]

/-- A Patient without addresses for the C3 counterexample. -/
def c3Resource : JsonVal :=
  .obj [("resourceType", .str "Patient"), ("id", .str "1")]

/-- The C3 select tree: a plain column branch and a `forEachOrNull` over
`address`. -/
def c3Select : List SelectDef :=
  [{ column := some [patientIdCol] },
   { forEachOrNull := some "address", column := some [cityCol] }]

/-- The row the C3 input actually produces (no `city` key at all). -/
def c3Row : Row := [("patient_id", .str "1")]

/-- A Patient whose base column (`gender`) is absent but whose `address`
branch produces data, for the C4 counterexample. -/
def c4Resource : JsonVal :=
  .obj [("resourceType", .str "Patient"), ("id", .str "1"),
        ("address", .arr [.obj [("city", .str "Springfield")]])]

/-- Declared base columns of the C4 view. -/
def c4Columns : List Column := [genderCol]

/-- The C4 select tree: a single `forEach` over `address`. -/
def c4Select : List SelectDef :=
  [{ forEach := some "address", column := some [cityCol] }]

/-- The row the C4 input actually produces (missing the declared `gender`
column). -/
def c4Row : Row := [("city", .str "Springfield")]

/-- `true` iff the optional column list has pairwise-distinct names. -/
def colsNamesNodup : Option (List Column) → Bool
  | none => true
  | some cs => namesNodup (cs.map (fun c => c.name))

/-- `true` iff every select definition has pairwise-distinct column
names. -/
def selNamesNodup : Option (List SelectDef) → Bool
  | none => true
  | some sds => sds.all (fun sd => colsNamesNodup sd.column)

/-- `true` iff the row carries at least one non-null value. -/
def rowP (r : Row) : Bool := r.any (fun p => !isNull p.2)

/-- `true` iff the row is empty or carries at least one non-null value
(the invariant of the accumulated main row). -/
def rowQ (r : Row) : Bool := r.isEmpty || rowP r

/-- The select tree of the well-formed C5 ViewDefinition. -/
def c5GoodNodes : List SelectNode :=
  [SelectNode.mk (some [{ path := "id", name := "patient_id" }]) none none
    none none]

/-- A well-formed ViewDefinition: all four required fields present, one
select node with a regex-valid column name, no constants. -/
def c5GoodVd : ViewDefinition :=
  { name := .str "patient_view", status := .str "active",
    resource := .str "Patient", select := .arr c5GoodNodes }

/-- A ViewDefinition whose `select` is the *empty* array (required fields
all present). -/
def c5EmptySelectVd : ViewDefinition :=
  { name := .str "v", status := .str "active",
    resource := .str "Patient", select := .arr [] }

/-- A ViewDefinition that passes required-field validation but whose
`constant[]` holds an entry with no `value*` attribute. -/
def c10Vd : ViewDefinition :=
  { name := .str "v", status := .str "active",
    resource := .str "Patient", select := .arr [],
    constant := some [[("name", .str "c")]] }

/-- An insert oracle under which no database insert fails. -/
def noFail : List JsonVal → Bool := fun _ => false

/-- The `test_table` of the repository upsert tests: resource key column
`test_table_id` and a `value` column (plus the surrogate `id`). -/
def c1Table : TableState :=
  { schemaColumns := ["id", "test_table_id", "value"], storedRows := [] }

/-- The initial batch of the repository upsert test. -/
def c1Batch : List Row :=
  [[("test_table_id", .str "1"), ("value", .str "a")],
   [("test_table_id", .str "2"), ("value", .str "b")]]

/-- First application of the batch to the empty table. -/
def c1First : UpsertOutcome :=
  upsertData [0] c1Table c1Batch "test_table_id" false noFail

/-- Second application of the *same* batch to the resulting table. -/
def c1Second : UpsertOutcome :=
  upsertData c1First.pool c1First.table c1Batch "test_table_id" false noFail

/-- An upsert whose schema-introspection query fails, starting from a
one-connection pool. -/
def c9Leak : UpsertOutcome :=
  upsertData [7] c1Table c1Batch "test_table_id" true noFail

/-- An empty database for the C8 witness. -/
def c8Db : DBState := { tables := [], sequences := [] }

/-- A one-column table schema for the C8 witness. -/
def c8Cols : List TableColumn := [{ name := "patient_id" }]

/- ###### Theorems -/

/-- A single where clause admits iff its evaluation starts with the boolean
`true`. -/
theorem whereClauseHead_iff (l : List JsonVal) :
    (match l with
      | [] => false
      | v :: _ =>
        match v with
        | JsonVal.bool true => true
        | _ => false) = true ↔ ∃ rest, l = JsonVal.bool true :: rest := by
  cases l with
  | nil => simp
  | cons v t =>
    cases v with
    | bool b =>
      cases b with
      | true => simp
      | false => simp
    | null => simp
    | undefined => simp
    | num n => simp
    | str s => simp
    | arr xs => simp
    | obj fs => simp

/-- C6: a resource is admitted by `evaluateWhereClauses` iff every clause
evaluates to a non-empty list whose first element is the boolean `true`
(strict `=== true`); an empty clause list admits every resource.  Any
clause with an empty result or a non-`true` head therefore excludes the
resource (the contrapositive of the iff). -/
theorem where_filter_admission
    (eval : JsonVal → String → List JsonVal) (resource : JsonVal)
    (ws : List WhereClause) :
    evaluateWhereClauses eval resource [] = true ∧
      (evaluateWhereClauses eval resource ws = true ↔
        ∀ w ∈ ws, ∃ rest, eval resource w.path = JsonVal.bool true :: rest) := by
  constructor
  · rfl
  · unfold evaluateWhereClauses
    rw [List.all_eq_true]
    constructor
    · intro h w hw
      exact (whereClauseHead_iff (eval resource w.path)).mp (h w hw)
    · intro h w hw
      exact (whereClauseHead_iff (eval resource w.path)).mpr (h w hw)

/-- C6 witness: the admission criterion evaluated at a concrete resource
and a concrete clause list. -/
theorem where_filter_admission_witness :
    evaluateWhereClauses (fun _ _ => [JsonVal.bool true]) (JsonVal.obj [])
      [{ path := "active" }] = true :=
  (where_filter_admission (fun _ _ => [JsonVal.bool true]) (JsonVal.obj [])
    [{ path := "active" }]).2.mpr (fun _ _ => ⟨[], rfl⟩)

/-- C7 counterexample: the claim states that whenever the optional
`resourceType` argument is supplied and differs from the type part of the
reference, the result is `[]`.  Supplying the empty string (which differs
from `Patient`) falsifies this: the source guards the comparison with the
truthiness of `resourceType`, so an empty-string argument skips the type
check and the id is returned. -/
theorem getReferenceKey_empty_type_arg_counterexample :
    getReferenceKey [JsonVal.str "Patient/1"] (some "") = [JsonVal.str "1"] ∧
      "" ≠ "Patient" := by
  exact ⟨rfl, by decide⟩

/-- C7 amended: `getReferenceKey` returns `[id]` for a well-formed
`"ResourceType/id"` reference (string input or object with a `reference`
property) when the optional `resourceType` argument is absent or equals the
type part; it returns `[]` for an empty input collection, for an object
without a reference, for a reference that does not split into exactly two
`/`-separated parts, and when `resourceType` is supplied as a *non-empty*
string different from the type part (the empty string skips the check —
see the counterexample). -/
theorem getReferenceKey_spec
    (rest : List JsonVal) (fields : Row) (rt : Option String)
    (s ty id : String) :
    (getReferenceKey [] rt = []) ∧
    (jsSplit s '/' = [ty, id] → (rt = none ∨ rt = some ty) →
      getReferenceKey (JsonVal.str s :: rest) rt = [JsonVal.str id]) ∧
    (lookupRow fields "reference" = some (JsonVal.str s) → s ≠ "" →
      jsSplit s '/' = [ty, id] → (rt = none ∨ rt = some ty) →
      getReferenceKey (JsonVal.obj fields :: rest) rt = [JsonVal.str id]) ∧
    ((jsSplit s '/').length ≠ 2 →
      getReferenceKey (JsonVal.str s :: rest) rt = []) ∧
    (∀ rt', rt = some rt' → rt' ≠ "" → rt' ≠ ty → jsSplit s '/' = [ty, id] →
      getReferenceKey (JsonVal.str s :: rest) rt = []) ∧
    (lookupRow fields "reference" = none →
      getReferenceKey (JsonVal.obj fields :: rest) rt = []) := by
  have hsplit_ne : ∀ t i : String, jsSplit s '/' = [t, i] → s ≠ "" := by
    intro t i hspl hs
    rw [hs] at hspl
    simp [jsSplit, splitCharGo] at hspl
  refine ⟨rfl, ?_, ?_, ?_, ?_, ?_⟩
  · intro hspl hrt
    have hs : s ≠ "" := hsplit_ne _ _ hspl
    have hs' : (s != "") = true := by simpa using hs
    rcases hrt with h | h <;>
      simp [getReferenceKey, jsTruthy, hs', hspl, h]
  · intro hlook hs hspl hrt
    have hs' : (s != "") = true := by simpa using hs
    rcases hrt with h | h <;>
      simp [getReferenceKey, hlook, jsTruthy, hs', hspl, h]
  · intro hlen
    by_cases hs : s = ""
    · subst hs
      simp [getReferenceKey, jsTruthy]
    · have hs' : (s != "") = true := by simpa using hs
      rcases hmatch : jsSplit s '/' with _ | ⟨a, _ | ⟨b, _ | _⟩⟩ <;>
        simp_all [getReferenceKey, jsTruthy]
  · intro rt' hrt hne hnety hspl
    subst hrt
    have hs : s ≠ "" := hsplit_ne _ _ hspl
    have hs' : (s != "") = true := by simpa using hs
    have h1 : (rt' != "") = true := by simpa using hne
    have h2 : (ty != rt') = true := by simpa using (Ne.symm hnety)
    simp [getReferenceKey, jsTruthy, hs', hspl, h1, h2]
  · intro hlook
    simp [getReferenceKey, hlook]

/-- C7 witness: the amended statement applied at the reference
`"Patient/2"` carried by an object, with a matching type argument. -/
theorem getReferenceKey_spec_witness :
    getReferenceKey [JsonVal.obj [("reference", JsonVal.str "Patient/2")]]
      (some "Patient") = [JsonVal.str "2"] :=
  (getReferenceKey_spec [] [("reference", JsonVal.str "Patient/2")]
      (some "Patient") "Patient/2" "Patient" "2").2.2.1 rfl (by decide)
    (by decide) (Or.inr rfl)

/-- The `forEach` pass contributes nothing when every `forEach` expression
in the select list evaluates to the empty collection. -/
theorem processForEachDefs_all_empty
    (eval : JsonVal → String → List JsonVal) (res : JsonVal) (mainRow : Row) :
    ∀ (sel : List SelectDef) (acc : List Row),
      (∀ sd ∈ sel, strOptTruthy sd.forEach = true →
        eval res (sd.forEach.getD "") = []) →
      processForEachDefs eval res mainRow sel acc = .ok acc := by
  intro sel
  induction sel with
  | nil => intro acc _; rfl
  | cons sd rest ih =>
    intro acc h
    by_cases hfe : strOptTruthy sd.forEach = true
    · have hev := h sd (List.mem_cons_self _ _) hfe
      simp only [processForEachDefs, hfe, if_true, hev]
      show processForEachDefs eval res mainRow rest acc = .ok acc
      exact ih acc (fun s hs => h s (List.mem_cons_of_mem _ hs))
    · simp only [processForEachDefs, hfe, if_false]
      exact ih acc (fun s hs => h s (List.mem_cons_of_mem _ hs))

/-- C2 counterexample: the view of the repository test "should handle
patient with no addresses" — a Patient whose only `forEach` branch
(`address`) evaluates to the empty collection.  The claim demands zero
output rows; the code emits the base row (with the branch columns null)
in its place, which is also what the repository test expects. -/
theorem forEach_empty_counterexample :
    materializeResource lookupEval c2Resource "Patient" (some [])
        (some c2Columns) (some c2Select) = .ok [c2Row] ∧
      c2Row.length = 4 :=
  ⟨rfl, rfl⟩

/-- C2 amended: a `forEach` branch whose expression evaluates to the empty
collection contributes zero rows of its own; but when *every* `forEach`
branch of the select list is empty, `processResource` falls back to
emitting the accumulated main row once (unless it is empty).  The base row
is therefore emitted in place of the empty inner join. -/
theorem forEach_empty_fallback
    (eval : JsonVal → String → List JsonVal) (resourceData : JsonVal)
    (columns : Option (List Column)) (sel : List SelectDef)
    (hne : sel ≠ [])
    (hempty : ∀ sd ∈ sel, strOptTruthy sd.forEach = true →
      eval resourceData (sd.forEach.getD "") = []) :
    processResource eval resourceData columns (some sel) =
      .ok
        (if (buildMainRow eval resourceData
              (baseRowOf eval resourceData columns) sel).isEmpty then []
         else
           [buildMainRow eval resourceData
              (baseRowOf eval resourceData columns) sel]) := by
  have hment : sel.isEmpty = false := by
    cases sel with
    | nil => exact absurd rfl hne
    | cons a l => rfl
  unfold processResource
  simp only [hment, Bool.false_eq_true, if_false,
    processForEachDefs_all_empty eval resourceData _ sel [] hempty]
  cases hmr : buildMainRow eval resourceData
      (baseRowOf eval resourceData columns) sel with
  | nil => simp
  | cons p r => simp

/-- C2 witness: the amended statement at a concrete select list whose only
branch is an empty `forEach`; the main row is empty, so no row at all is
emitted. -/
theorem forEach_empty_fallback_witness :
    processResource emptyEval (JsonVal.obj []) none (some c2wSelect) =
      .ok ([] : List Row) := by
  have h := forEach_empty_fallback emptyEval (JsonVal.obj []) none c2wSelect
    (by simp [c2wSelect]) (fun _ _ _ => rfl)
  rw [h]
  rfl

/-- Every entry of `setKey r k v` comes from `r` or is the new entry. -/
theorem setKey_mem (r : Row) (k : String) (v : JsonVal) :
    ∀ p ∈ setKey r k v, p ∈ r ∨ p = (k, v) := by
  induction r with
  | nil =>
    intro p hp
    simp [setKey] at hp
    exact Or.inr hp
  | cons q rest ih =>
    intro p hp
    by_cases hq : q.1 = k
    · have : (q.1 == k) = true := by simp [hq]
      simp only [setKey, this, if_true] at hp
      rcases List.mem_cons.mp hp with h | h
      · exact Or.inr h
      · exact Or.inl (List.mem_cons_of_mem _ h)
    · have : (q.1 == k) = false := by simp [hq]
      simp only [setKey, this, if_false] at hp
      rcases List.mem_cons.mp hp with h | h
      · exact Or.inl (h ▸ List.mem_cons_self _ _)
      · rcases ih p h with h' | h'
        · exact Or.inl (List.mem_cons_of_mem _ h')
        · exact Or.inr h'

/-- All values of the per-element row of `processNestedSelect` are `null`
or the empty array when the iteration element is falsy (in particular for
the substituted `null` element of an empty `forEachOrNull`). -/
theorem nselRow_null_entries (eval : JsonVal → String → List JsonVal)
    (element : JsonVal) (hel : jsTruthy element = false)
    (cols : List Column) :
    ∀ p ∈ nselRow eval element (some cols), nullOrEmptyArr p.2 = true := by
  suffices h : ∀ (cs : List Column) (acc : Row),
      (∀ p ∈ acc, nullOrEmptyArr p.2 = true) →
      ∀ p ∈ cs.foldl
          (fun r c =>
            let result := if jsTruthy element then eval element c.path else []
            setKey r c.name
              (if c.collection then .arr result
               else
                 match result with
                 | [] => JsonVal.null
                 | v :: _ => v))
          acc, nullOrEmptyArr p.2 = true by
    intro p hp
    exact h cols [] (by intro q hq; simp at hq) p hp
  intro cs
  induction cs with
  | nil => intro acc hacc p hp; exact hacc p hp
  | cons c rest ih =>
    intro acc hacc p hp
    refine ih _ ?_ p hp
    intro q hq
    rcases setKey_mem _ _ _ q hq with h | h
    · exact hacc q h
    · rw [h]
      simp only [hel, Bool.false_eq_true, if_false]
      cases hc : c.collection <;> simp [nullOrEmptyArr]

/-- C3 counterexample: the current materializer (`processResource`) ignores
`forEachOrNull` entirely.  For a Patient with no `address`, the view with a
`forEachOrNull: "address"` branch emits one row that does not even contain
the branch column `city` (the claim demands a row with `city` null). -/
theorem forEachOrNull_ignored_counterexample :
    materializeResource lookupEval c3Resource "Patient" none
        (some [patientIdCol]) (some c3Select) = .ok [c3Row] ∧
      hasKey c3Row "city" = false :=
  ⟨rfl, rfl⟩

/-- C3 amended: the outer-join semantics is implemented only by
`processNestedSelect` (the earlier materializer, still in the file): a
`forEachOrNull` branch with no nested select whose expression evaluates to
the empty collection yields exactly one row, in which every branch column
is `null` — or the empty array for a collection column.  The current
`processResource` does not read `forEachOrNull` at all (see the
counterexample). -/
theorem forEachOrNull_empty_nested
    (eval : JsonVal → String → List JsonVal) (resource : JsonVal)
    (e : String) (cols : List Column)
    (he : e ≠ "") (hev : eval resource e = []) :
    (processNestedSelect eval resource
        (NSel.mk none (some e) (some cols) none)).length = 1 ∧
      (processNestedSelect eval resource
          (NSel.mk none (some e) (some cols) none)).all
        (fun r => r.all (fun p => nullOrEmptyArr p.2)) = true := by
  have he' : (e != "") = true := by simpa using he
  have hsize : nselSize (NSel.mk none (some e) (some cols) none) = 1 := by
    simp [nselSize]
  have hrow : processNestedSelect eval resource
      (NSel.mk none (some e) (some cols) none) =
      [nselRow eval JsonVal.null (some cols)] := by
    unfold processNestedSelect
    rw [hsize]
    simp [pnsFuel, NSel.forEach, NSel.forEachOrNull, NSel.column, NSel.select,
      strOptTruthy, he', hev]
  constructor
  · rw [hrow]; rfl
  · rw [hrow]
    simp only [List.all_cons, List.all_nil, Bool.and_true]
    rw [List.all_eq_true]
    intro p hp
    exact nselRow_null_entries eval JsonVal.null rfl cols p hp

/-- C3 witness: the amended statement at the concrete branch
`forEachOrNull: "address"` with a single `city` column and an evaluator
returning the empty collection. -/
theorem forEachOrNull_empty_nested_witness :
    (processNestedSelect emptyEval (JsonVal.obj [])
        (NSel.mk none (some "address") (some [cityCol]) none)).length = 1 ∧
      (processNestedSelect emptyEval (JsonVal.obj [])
          (NSel.mk none (some "address") (some [cityCol]) none)).all
        (fun r => r.all (fun p => nullOrEmptyArr p.2)) = true :=
  forEachOrNull_empty_nested emptyEval (JsonVal.obj []) "address" [cityCol]
    (by decide) rfl

/-- Assigning a fresh key appends. -/
theorem setKey_not_mem (r : Row) (k : String) (v : JsonVal)
    (h : hasKey r k = false) : setKey r k v = r ++ [(k, v)] := by
  induction r with
  | nil => rfl
  | cons q rest ih =>
    simp only [hasKey, List.any_cons, Bool.or_eq_false_iff] at h
    simp only [setKey, h.1, if_false]
    rw [ih (by simpa [hasKey] using h.2)]
    rfl

/-- Characterization of the `processColumns` loop when the column names
are fresh and pairwise distinct: the row is extended by one entry per
column in order, and data is found iff some column value is non-null. -/
theorem processColumnsGo_eq (eval : JsonVal → String → List JsonVal)
    (res : JsonVal) (th : Option JsonVal) :
    ∀ (cols : List Column) (row : Row) (b : Bool),
      (∀ c ∈ cols, hasKey row c.name = false) →
      namesNodup (cols.map (fun c => c.name)) = true →
      processColumnsGo eval res th cols row b =
        if b || cols.any (fun c => !isNull (colValue eval res th c)) then
          some (row ++ cols.map (fun c => (c.name, colValue eval res th c)))
        else none := by
  intro cols
  induction cols with
  | nil =>
    intro row b _ _
    simp [processColumnsGo]
  | cons c rest ih =>
    intro row b hfresh hnd
    simp only [List.map, namesNodup, Bool.and_eq_true] at hnd
    have hfc : hasKey row c.name = false := hfresh c (List.mem_cons_self _ _)
    have hnotin : c.name ∉ rest.map (fun c => c.name) := by
      simpa using hnd.1
    have hfresh' : ∀ c' ∈ rest, hasKey (row ++ [(c.name, colValue eval res th c)]) c'.name = false := by
      intro c' hc'
      have h1 : hasKey row c'.name = false := hfresh c' (List.mem_cons_of_mem _ hc')
      have h2 : c.name ≠ c'.name := by
        intro hcon
        exact hnotin (List.mem_map.mpr ⟨c', hc', hcon.symm⟩)
      simp only [hasKey, List.any_append, Bool.or_eq_false_iff]
      constructor
      · simpa [hasKey] using h1
      · simp [h2]
    simp only [processColumnsGo]
    rw [setKey_not_mem _ _ _ hfc, ih _ _ hfresh' hnd.2]
    simp only [List.any_cons, List.map_cons]
    rw [Bool.or_assoc]
    simp [List.append_assoc]

/-- When `processColumns` returns a row under pairwise-distinct column
names, the row carries a non-null value and its keys are pairwise
distinct. -/
theorem processColumns_some_facts (eval : JsonVal → String → List JsonVal)
    (res : JsonVal) (cols : List Column) (th : Option JsonVal) (row : Row)
    (hnd : namesNodup (cols.map (fun c => c.name)) = true)
    (h : processColumns eval res cols th = some row) :
    rowP row = true ∧ namesNodup (row.map (fun p => p.1)) = true := by
  unfold processColumns at h
  rw [processColumnsGo_eq eval res th cols [] false
    (by intro c _; rfl) hnd] at h
  by_cases hany : cols.any (fun c => !isNull (colValue eval res th c)) = true
  · simp only [hany, Bool.or_true, if_true, List.nil_append,
      Option.some.injEq] at h
    subst h
    constructor
    · simp only [rowP, List.any_map]
      simpa [Function.comp] using hany
    · rw [List.map_map]
      simpa [Function.comp] using hnd
  · simp [Bool.false_or, hany] at h

/-- The accumulated main row of `processResource` is empty or carries a
non-null value. -/
theorem buildMainRow_Q (eval : JsonVal → String → List JsonVal)
    (res : JsonVal) (columns : Option (List Column)) (sel : List SelectDef)
    (h1 : colsNamesNodup columns = true)
    (h2 : sel.all (fun sd => colsNamesNodup sd.column) = true) :
    rowQ (buildMainRow eval res (baseRowOf eval res columns) sel) = true := by
  have hbase : rowQ ((baseRowOf eval res columns).getD []) = true := by
    cases columns with
    | none => rfl
    | some cols =>
      simp only [baseRowOf]
      cases hpc : processColumns eval res cols none with
      | none => simp [hpc, rowQ]
      | some r =>
        have := (processColumns_some_facts eval res cols none r
          (by simpa [colsNamesNodup] using h1) hpc).1
        simp [hpc, rowQ, this]
  unfold buildMainRow
  revert hbase
  generalize (baseRowOf eval res columns).getD [] = acc
  revert acc
  induction sel with
  | nil => intro acc hacc; simpa using hacc
  | cons sd rest ih =>
    intro acc hacc
    simp only [List.all_cons, Bool.and_eq_true] at h2
    simp only [List.foldl_cons]
    apply ih h2.2
    by_cases hfe : strOptTruthy sd.forEach = true
    · simpa [hfe] using hacc
    · simp only [hfe]
      cases hcol : sd.column with
      | none => simpa [hfe, hcol] using hacc
      | some cols =>
        cases hpc : processColumns eval res cols none with
        | none => simpa [hfe, hcol, hpc] using hacc
        | some r =>
          have hfacts := processColumns_some_facts eval res cols none r
            (by simpa [colsNamesNodup, hcol] using h2.1) hpc
          have : rowP (mergeRows acc r) = true :=
            mergeRows_any_nonnull acc r hfacts.2 hfacts.1
          simp [hfe, hcol, hpc, rowQ, this]

/-- The element loop of the `forEach` pass preserves "every accumulated
row has a non-null value". -/
theorem processForEachElems_P (eval : JsonVal → String → List JsonVal)
    (mainRow : Row) (cols? : Option (List Column))
    (hnd : colsNamesNodup cols? = true) :
    ∀ (els : List JsonVal) (acc out : List Row),
      acc.all rowP = true →
      processForEachElems eval mainRow cols? els acc = .ok out →
      out.all rowP = true := by
  cases cols? with
  | none =>
    intro els
    induction els with
    | nil =>
      intro acc out hacc h
      simp only [processForEachElems] at h
      cases h
      exact hacc
    | cons el rest ih =>
      intro acc out hacc h
      simp only [processForEachElems] at h
      by_cases hel : jsTruthy el = true
      · simp only [hel, if_true] at h
        cases h
      · have hel' : jsTruthy el = false := by simpa using hel
        simp only [hel', Bool.false_eq_true, if_false] at h
        exact ih acc out hacc h
  | some cols =>
    intro els
    induction els with
    | nil =>
      intro acc out hacc h
      simp only [processForEachElems] at h
      cases h
      exact hacc
    | cons el rest ih =>
      intro acc out hacc h
      simp only [processForEachElems] at h
      by_cases hel : jsTruthy el = true
      · simp only [hel, if_true] at h
        revert h
        cases hpc : processColumns eval el cols (some el) with
        | none =>
          intro h
          exact ih acc out hacc h
        | some nr =>
          intro h
          have hfacts := processColumns_some_facts eval el cols (some el) nr
            (by simpa [colsNamesNodup] using hnd) hpc
          by_cases hlen : nr.length > 0
          · simp only [hlen, if_true] at h
            refine ih _ out ?_ h
            rw [List.all_append]
            simp only [hacc, Bool.true_and, List.all_cons, List.all_nil,
              Bool.and_true]
            exact mergeRows_any_nonnull mainRow nr hfacts.2 hfacts.1
          · simp only [hlen, if_false] at h
            exact ih acc out hacc h
      · have hel' : jsTruthy el = false := by simpa using hel
        simp only [hel', Bool.false_eq_true, if_false] at h
        exact ih acc out hacc h

/-- The outer loop of the `forEach` pass preserves the same invariant. -/
theorem processForEachDefs_P (eval : JsonVal → String → List JsonVal)
    (res : JsonVal) (mainRow : Row) :
    ∀ (sel : List SelectDef) (acc out : List Row),
      sel.all (fun sd => colsNamesNodup sd.column) = true →
      acc.all rowP = true →
      processForEachDefs eval res mainRow sel acc = .ok out →
      out.all rowP = true := by
  intro sel
  induction sel with
  | nil =>
    intro acc out _ hacc h
    simp only [processForEachDefs] at h
    cases h
    exact hacc
  | cons sd rest ih =>
    intro acc out hnd hacc h
    simp only [List.all_cons, Bool.and_eq_true] at hnd
    simp only [processForEachDefs] at h
    by_cases hfe : strOptTruthy sd.forEach = true
    · simp only [hfe, if_true] at h
      revert h
      cases helems : processForEachElems eval mainRow sd.column
          (eval res (sd.forEach.getD "")) acc with
      | error e => intro h; cases h
      | ok acc' =>
        intro h
        have hacc' := processForEachElems_P eval mainRow sd.column hnd.1 _
          acc acc' hacc helems
        exact ih acc' out hnd.2 hacc' h
    · simp only [hfe, if_false] at h
      exact ih acc out hnd.2 hacc h

/-- C4 counterexample: a Patient whose declared base column `gender` is
absent but whose `forEach address` branch produces data.  The emitted row
consists of the branch columns only — its key set is missing the declared
column `gender`, so key-set equality with the declared column set fails. -/
theorem row_key_set_counterexample :
    materializeResource lookupEval c4Resource "Patient" none
        (some c4Columns) (some c4Select) = .ok [c4Row] ∧
      hasKey c4Row "gender" = false ∧
      (c4Columns.map (fun c => c.name)).contains "gender" = true :=
  ⟨rfl, rfl, rfl⟩

/-- C4 amended: every row emitted by `processResource` carries at least
one non-null value — all-null rows are suppressed — provided the column
lists of the plan have pairwise-distinct names.  (Key-set equality with
the declared columns does not hold; see the counterexample.) -/
theorem rows_have_nonnull (eval : JsonVal → String → List JsonVal)
    (res : JsonVal) (columns : Option (List Column))
    (select : Option (List SelectDef)) (rows : List Row)
    (h1 : colsNamesNodup columns = true)
    (h2 : selNamesNodup select = true)
    (h3 : processResource eval res columns select = .ok rows) :
    rows.all rowP = true := by
  have hbase : ∀ r : Row, baseRowOf eval res columns = some r →
      (if r.length > 0 then [r] else []).all rowP = true := by
    intro r hr
    cases columns with
    | none =>
      simp only [baseRowOf, Option.some.injEq] at hr
      subst hr
      rfl
    | some cols =>
      simp only [baseRowOf] at hr
      have := (processColumns_some_facts eval res cols none r
        (by simpa [colsNamesNodup] using h1) hr).1
      by_cases hlen : r.length > 0
      · simp [hlen, this]
      · simp [hlen]
  unfold processResource at h3
  cases select with
  | none =>
    revert h3
    cases hb : baseRowOf eval res columns with
    | none => intro h3; cases h3
    | some r =>
      intro h3
      simp only [Except.ok.injEq] at h3
      subst h3
      exact hbase r hb
  | some sel =>
    by_cases hse : sel.isEmpty = true
    · simp only [hse, if_true] at h3
      revert h3
      cases hb : baseRowOf eval res columns with
      | none => intro h3; cases h3
      | some r =>
        intro h3
        simp only [Except.ok.injEq] at h3
        subst h3
        exact hbase r hb
    · have hse' : sel.isEmpty = false := by simpa using hse
      simp only [hse', Bool.false_eq_true, if_false] at h3
      revert h3
      cases hfd : processForEachDefs eval res
          (buildMainRow eval res (baseRowOf eval res columns) sel) sel [] with
      | error e => intro h3; cases h3
      | ok resultRows =>
        intro h3
        simp only [Except.ok.injEq] at h3
        subst h3
        have hQ := buildMainRow_Q eval res columns sel h1
          (by simpa [selNamesNodup] using h2)
        have hall := processForEachDefs_P eval res _ sel [] resultRows
          (by simpa [selNamesNodup] using h2) rfl hfd
        by_cases hcond : (resultRows.isEmpty &&
            decide ((buildMainRow eval res (baseRowOf eval res columns)
              sel).length > 0)) = true
        · simp only [hcond, if_true]
          simp only [Bool.and_eq_true, decide_eq_true_eq] at hcond
          have hm : rowP (buildMainRow eval res
              (baseRowOf eval res columns) sel) = true := by
            unfold rowQ at hQ
            rcases Bool.or_eq_true_iff.mp hQ with h | h
            · exfalso
              have : (buildMainRow eval res (baseRowOf eval res columns)
                  sel).length = 0 := by
                simpa [List.isEmpty_iff_length_eq_zero] using h
              omega
            · exact h
          simp [hm]
        · have hcond' : (resultRows.isEmpty &&
              decide ((buildMainRow eval res (baseRowOf eval res columns)
                sel).length > 0)) = false := by simpa using hcond
          simp only [hcond', Bool.false_eq_true, if_false]
          exact hall

/-- C4 witness: the amended statement at the C4 fixture — the single
emitted row carries the non-null value `Springfield`. -/
theorem rows_have_nonnull_witness : ([c4Row] : List Row).all rowP = true :=
  rows_have_nonnull lookupEval c4Resource (some c4Columns) (some c4Select)
    [c4Row] (by decide) (by decide) rfl

/-- `mapME extractColumn` succeeds when every column name is valid. -/
theorem mapME_extractColumn_ok (cp : String) :
    ∀ cols : List ColumnIn,
      cols.all (fun c => isValidColumnName c.name) = true →
      ∃ out, mapME (extractColumn cp) cols = .ok out := by
  intro cols
  induction cols with
  | nil => intro _; exact ⟨[], rfl⟩
  | cons c cs ih =>
    intro h
    simp only [List.all_cons, Bool.and_eq_true] at h
    obtain ⟨out, hout⟩ := ih h.2
    refine ⟨{ path := c.path, name := c.name, type := jsOrString c.type "string",
              description := jsOrString c.description "",
              collection := c.collection.getD false, tags := c.tag.getD [],
              selectPath := cp } :: out, ?_⟩
    simp only [mapME, extractColumn, h.1, if_true, hout]

/-- `extractConstants` succeeds when every constant entry has a
`value`-prefixed attribute. -/
theorem extractConstants_ok (cs : Option (List (List (String × JsonVal))))
    (h : constantsOk cs = true) :
    ∃ out, extractConstants cs = .ok out := by
  cases cs with
  | none => exact ⟨[], rfl⟩
  | some entries =>
    simp only [constantsOk] at h
    simp only [extractConstants]
    induction entries with
    | nil => exact ⟨[], rfl⟩
    | cons e es ih =>
      simp only [List.all_cons, Bool.and_eq_true] at h
      obtain ⟨out, hout⟩ := ih h.2
      have hfind : ∃ k, (e.map (fun p => p.1)).find?
          (fun k => k.startsWith "value") = some k := by
        cases hf : (e.map (fun p => p.1)).find? (fun k => k.startsWith "value") with
        | some k => exact ⟨k, rfl⟩
        | none =>
          exfalso
          obtain ⟨k, hk, hks⟩ := List.any_eq_true.mp h.1
          exact absurd hks (by simpa using List.find?_eq_none.mp hf k hk)
      obtain ⟨k, hk⟩ := hfind
      refine ⟨{ name := (lookupRow e "name").getD .undefined,
                value := (lookupRow e k).getD .undefined,
                type := (k.drop 5).toLower } :: out, ?_⟩
      simp only [mapME, extractConstant, hk, hout]

/-- `extractNodeCols` succeeds when the (present) column names are all
valid. -/
theorem extractNodeCols_ok (cp : String) (colOpt : Option (List ColumnIn))
    (h : (match colOpt with
          | some cols => cols.all (fun c => isValidColumnName c.name)
          | none => true) = true) :
    ∃ co, extractNodeCols cp colOpt = .ok co := by
  cases colOpt with
  | none => exact ⟨[], rfl⟩
  | some cols =>
    obtain ⟨out, hout⟩ := mapME_extractColumn_ok cp cols h
    exact ⟨out, hout⟩

/-- `extractNodeNested` succeeds when the recursive child extraction (if
any is consulted) succeeded. -/
theorem extractNodeNested_ok (cp : String) (s : SelectNode)
    (childRes : Except JsErr ExtractOut)
    (h : (match s.select with
          | some _ => isOkE childRes
          | none => true) = true) :
    ∃ ns, extractNodeNested cp s childRes = .ok ns := by
  unfold extractNodeNested
  by_cases hcond : (s.select.isSome || strOptTruthy s.forEach ||
      strOptTruthy s.forEachOrNull) = true
  · simp only [hcond, if_true]
    cases hs : s.select with
    | none => exact ⟨_, rfl⟩
    | some children =>
      rw [hs] at h
      cases hc : childRes with
      | error e => rw [hc] at h; simp [isOkE] at h
      | ok r => exact ⟨_, rfl⟩
  · have hcond' : (s.select.isSome || strOptTruthy s.forEach ||
        strOptTruthy s.forEachOrNull) = false := by simpa using hcond
    simp only [hcond', Bool.false_eq_true, if_false]
    exact ⟨[], rfl⟩

/-- `extractSelectsF` succeeds whenever every column name in the tree is
valid (with matching fuel). -/
theorem extractSelectsF_ok :
    ∀ (fuel : Nat) (nodes : List SelectNode) (pp : String) (idx : Nat),
      allNamesValidF fuel nodes = true →
      ∃ out, extractSelectsF fuel nodes pp idx = .ok out := by
  intro fuel
  induction fuel with
  | zero =>
    intro nodes pp idx _
    cases nodes with
    | nil => exact ⟨⟨[], []⟩, rfl⟩
    | cons s rest => exact ⟨⟨[], []⟩, rfl⟩
  | succ fuel ih =>
    intro nodes pp idx hv
    cases nodes with
    | nil => exact ⟨⟨[], []⟩, rfl⟩
    | cons s rest =>
      simp only [allNamesValidF, Bool.and_eq_true] at hv
      obtain ⟨⟨⟨hcols, hsel⟩, hua⟩, hrest⟩ := hv
      obtain ⟨co, hco⟩ := extractNodeCols_ok (selPath pp idx) s.column hcols
      obtain ⟨ns, hns⟩ := extractNodeNested_ok (selPath pp idx) s
        (match s.select with
         | some children => extractSelectsF fuel children (selPath pp idx) 0
         | none => .ok ⟨[], []⟩)
        (by
          cases hs : s.select with
          | none => rfl
          | some children =>
            obtain ⟨r, hr⟩ := ih children (selPath pp idx) 0
              (by rw [hs] at hsel; exact hsel)
            simp [hr, isOkE])
      have hu : ∃ u,
          ((match s.unionAll with
            | some us =>
              extractSelectsF fuel us (selPath pp idx ++ ".union") 0
            | none => (.ok ⟨[], []⟩ : Except JsErr ExtractOut))) = .ok u := by
        cases hua' : s.unionAll with
        | none => exact ⟨⟨[], []⟩, rfl⟩
        | some us =>
          have := ih us (selPath pp idx ++ ".union") 0
            (by rw [hua'] at hua; exact hua)
          simpa using this
      obtain ⟨u, huEq⟩ := hu
      obtain ⟨ro, hro⟩ := ih rest pp (idx + 1) hrest
      refine ⟨⟨co ++ u.columns ++ ro.columns,
               ns ++ u.nestedSelects ++ ro.nestedSelects⟩, ?_⟩
      simp only [extractSelectsF, hco, hns, huEq, hro]

/-- C5 counterexample: a ViewDefinition whose `select` is the empty array
(and whose other required fields are present) is *accepted* by
`parseViewDefinition`, although the claim demands failure whenever
`select` is not a non-empty sequence. -/
theorem empty_select_accepted_counterexample :
    isOkE (parseViewDefinition c5EmptySelectVd) = true ∧
      c5EmptySelectVd.select = SelField.arr [] :=
  ⟨rfl, rfl⟩

/-- C5 amended: `parseViewDefinition` fails with an
`Invalid ViewDefinition` error naming the offending field when `name`,
`status`, `resource` or `select` is missing (falsy), and when `select` is
truthy but not an array; it succeeds when the four required fields are
truthy, `select` is an array — *empty arrays included*, non-emptiness is
never checked — every column name in the select tree matches the
identifier regex, and every constant entry has a `value`-prefixed
attribute. -/
theorem view_validation_spec (vd : ViewDefinition) :
    (jsTruthy vd.name = false →
      parseViewDefinition vd =
        .error (.jsError "Invalid ViewDefinition: Missing required field name")) ∧
    (jsTruthy vd.name = true → jsTruthy vd.status = false →
      parseViewDefinition vd =
        .error (.jsError "Invalid ViewDefinition: Missing required field status")) ∧
    (jsTruthy vd.name = true → jsTruthy vd.status = true →
      jsTruthy vd.resource = false →
      parseViewDefinition vd =
        .error (.jsError "Invalid ViewDefinition: Missing required field resource")) ∧
    (jsTruthy vd.name = true → jsTruthy vd.status = true →
      jsTruthy vd.resource = true → vd.select.truthy = false →
      parseViewDefinition vd =
        .error (.jsError "Invalid ViewDefinition: Missing required field select")) ∧
    (jsTruthy vd.name = true → jsTruthy vd.status = true →
      jsTruthy vd.resource = true → vd.select.truthy = true →
      vd.select.isArray = false →
      parseViewDefinition vd =
        .error (.jsError "Invalid ViewDefinition: select must be an array")) ∧
    (∀ nodes, jsTruthy vd.name = true → jsTruthy vd.status = true →
      jsTruthy vd.resource = true → vd.select = SelField.arr nodes →
      constantsOk vd.constant = true →
      allNamesValidF (selListSize nodes) nodes = true →
      isOkE (parseViewDefinition vd) = true) := by
  refine ⟨?_, ?_, ?_, ?_, ?_, ?_⟩
  · intro h1
    simp [parseViewDefinition, validateViewDefinition, h1]
  · intro h1 h2
    simp [parseViewDefinition, validateViewDefinition, h1, h2]
  · intro h1 h2 h3
    simp [parseViewDefinition, validateViewDefinition, h1, h2, h3]
  · intro h1 h2 h3 h4
    simp [parseViewDefinition, validateViewDefinition, h1, h2, h3, h4]
  · intro h1 h2 h3 h4 h5
    simp [parseViewDefinition, validateViewDefinition, h1, h2, h3, h4, h5]
  · intro nodes h1 h2 h3 h4 h5 h6
    have hval : validateViewDefinition vd = .ok () := by
      simp [validateViewDefinition, h1, h2, h3, h4, SelField.truthy,
        SelField.isArray]
    obtain ⟨cs', hcs⟩ := extractConstants_ok vd.constant h5
    obtain ⟨eo, heo⟩ := extractSelectsF_ok (selListSize nodes) nodes "" 0 h6
    simp only [parseViewDefinition, hval, hcs, h4, extractSelects, heo]
    rfl

/-- C5 witness: the success side of the amended statement at a concrete
well-formed ViewDefinition. -/
theorem view_validation_spec_witness :
    isOkE (parseViewDefinition c5GoodVd) = true :=
  (view_validation_spec c5GoodVd).2.2.2.2.2 c5GoodNodes rfl rfl rfl rfl rfl
    (by decide)

/-- C10: a ViewDefinition that passes required-field validation but whose
`constant[]` holds an entry with no attribute starting with `value` makes
`parseViewDefinition` throw a `TypeError` (from dereferencing the
undefined value key in `extractConstants`), not an `InvalidViewDefinition`
error naming a field. -/
theorem constant_without_value_key_typeerror :
    validateViewDefinition c10Vd = .ok () ∧
      parseViewDefinition c10Vd =
        .error (.jsTypeError "Cannot read properties of undefined") :=
  ⟨rfl, rfl⟩

/-- Popping the pool never returns `none` on a non-empty pool. -/
theorem poolPop_ne_none (pool : List Nat) (h : pool ≠ []) :
    poolPop pool ≠ none := by
  cases pool with
  | nil => exact absurd rfl h
  | cons x rest =>
    simp only [poolPop]
    cases poolPop rest <;> simp

/-- Popping removes exactly one connection. -/
theorem poolPop_length (pool : List Nat) :
    ∀ c p', poolPop pool = some (c, p') → p'.length + 1 = pool.length := by
  induction pool with
  | nil => intro c p' h; cases h
  | cons x rest ih =>
    intro c p' h
    simp only [poolPop] at h
    revert h
    cases hr : poolPop rest with
    | none =>
      intro h
      have : rest = [] := by
        cases rest with
        | nil => rfl
        | cons y t => exact absurd hr (poolPop_ne_none _ (by simp))
      subst this
      cases h
      rfl
    | some cp =>
      intro h
      obtain ⟨c2, rest'⟩ := cp
      simp only [Option.some.injEq, Prod.mk.injEq] at h
      obtain ⟨hc, hp'⟩ := h
      subst hp'
      have := ih c2 rest' hr
      simp only [List.length_cons]
      omega

/-- Pushing then popping returns the pushed connection. -/
theorem poolPop_append (l : List Nat) (x : Nat) :
    poolPop (l ++ [x]) = some (x, l) := by
  induction l with
  | nil => rfl
  | cons y rest ih =>
    show poolPop (y :: (rest ++ [x])) = some (x, y :: rest)
    simp only [poolPop, ih]

/-- `tableExists` restores the pool size on every exit path. -/
theorem tableExistsOp_pool_length (pool : List Nat) (db : DBState)
    (q : Bool) (t : String) :
    (tableExistsOp pool db q t).2.length = pool.length := by
  unfold tableExistsOp getConnection
  cases hp : poolPop pool with
  | none => rfl
  | some cp =>
    obtain ⟨c, p'⟩ := cp
    have := poolPop_length pool c p' hp
    cases q <;> simp [releaseConnection] <;> omega

/-- `createTable` restores the pool size on every exit path. -/
theorem createTable_pool_length (pool : List Nat) (db : DBState)
    (t : String) (cols : List TableColumn) (f1 f2 f3 : Bool) :
    (createTable pool db t cols f1 f2 f3).pool.length = pool.length := by
  unfold createTable getConnection
  cases hp : poolPop pool with
  | none => rfl
  | some cp =>
    obtain ⟨c, p'⟩ := cp
    have hlen := poolPop_length pool c p' hp
    dsimp only
    rcases hte : tableExistsOp p' db f1 t with ⟨r, p2⟩
    have hp2 : p2.length = p'.length := by
      have := tableExistsOp_pool_length p' db f1 t
      rw [hte] at this
      exact this
    cases r with
    | error e =>
      simp [releaseConnection, hp2]
      omega
    | ok b =>
      cases b with
      | true =>
        simp [releaseConnection, hp2]
        omega
      | false =>
        cases f2 <;> cases f3 <;> simp [releaseConnection, hp2] <;> omega

/-- The per-row insert loop restores the pool size on every exit path. -/
theorem upsertRows_pool_length (allCols : List String) (key : String)
    (fails : List JsonVal → Bool) :
    ∀ (rows : List Row) (st : UpsertLoopState),
      ((upsertRows allCols key fails rows st).2).pool.length =
        st.pool.length := by
  intro rows
  induction rows with
  | nil => intro st; rfl
  | cons row rest ih =>
    intro st
    simp only [upsertRows, getConnection]
    cases hp : poolPop st.pool with
    | none => rfl
    | some cp =>
      obtain ⟨c, p'⟩ := cp
      have hlen := poolPop_length st.pool c p' hp
      by_cases hkey : (!(jsTruthy ((lookupRow row key).getD .undefined))) = true
      · simp only [hkey, if_true, ih]
        simp [releaseConnection]
        omega
      · have hkey' : (!(jsTruthy ((lookupRow row key).getD .undefined))) = false := by
          simpa using hkey
        simp only [hkey', Bool.false_eq_true, if_false]
        by_cases hins : fails (allCols.map fun col =>
            match lookupRow row col with
            | some v =>
              match v with
              | .undefined => JsonVal.null
              | _ => v
            | none => JsonVal.null) = true
        · simp only [hins, if_true, ih]
          simp [releaseConnection]
          omega
        · have hins' : fails (allCols.map fun col =>
              match lookupRow row col with
              | some v =>
                match v with
                | .undefined => JsonVal.null
                | _ => v
              | none => JsonVal.null) = false := by simpa using hins
          simp only [hins', Bool.false_eq_true, if_false, ih]
          simp [releaseConnection]
          omega

/-- C9 counterexample: `upsertData`'s schema introspection acquires a
connection with no `try`/`finally`; when the introspection query fails,
the call errors out with the connection never released — the pool shrinks
from one connection to zero, so the pool size is *not* restored on that
exit path. -/
theorem upsert_introspection_leak_counterexample :
    c9Leak.pool = [] ∧ isOkE c9Leak.result = false ∧
      ([7] : List Nat).length = 1 :=
  ⟨rfl, rfl, rfl⟩

/-- C9 amended: acquiring from an empty pool fails immediately with the
no-connection error (it never waits), and `tableExists`, `createTable`
and the per-row inserts of `upsertData` release their connections on every
exit path, restoring the pool size; `upsertData` as a whole restores the
pool size whenever its schema-introspection query succeeds — a failing
introspection leaks the held connection (see the counterexample). -/
theorem pool_discipline :
    (getConnection [] =
      .error (.jsError "No connections available in the pool")) ∧
    (∀ (pool : List Nat) (db : DBState) (q : Bool) (t : String),
      (tableExistsOp pool db q t).2.length = pool.length) ∧
    (∀ (pool : List Nat) (db : DBState) (t : String)
        (cols : List TableColumn) (f1 f2 f3 : Bool),
      (createTable pool db t cols f1 f2 f3).pool.length = pool.length) ∧
    (∀ (pool : List Nat) (table : TableState) (rows : List Row)
        (key : String) (fails : List JsonVal → Bool),
      (upsertData pool table rows key false fails).pool.length =
        pool.length) := by
  refine ⟨rfl, tableExistsOp_pool_length, createTable_pool_length, ?_⟩
  intro pool table rows key fails
  unfold upsertData
  by_cases hrows : rows.isEmpty = true
  · have : rows = [] := by simpa using hrows
    subst this
    rfl
  · have hrows' : rows.isEmpty = false := by simpa using hrows
    simp only [hrows', Bool.false_eq_true, if_false, getConnection]
    cases hp : poolPop pool with
    | none => rfl
    | some cp =>
      obtain ⟨c, p'⟩ := cp
      have hlen := poolPop_length pool c p' hp
      dsimp only
      rcases hloop : upsertRows (table.schemaColumns.filter fun col => col != "id")
          key fails rows ⟨releaseConnection p' c, 0, 0, []⟩ with ⟨r, st⟩
      have hst : st.pool.length = (releaseConnection p' c).length := by
        have := upsertRows_pool_length
          (table.schemaColumns.filter fun col => col != "id") key fails rows
          ⟨releaseConnection p' c, 0, 0, []⟩
        rw [hloop] at this
        exact this
      have hgoal : st.pool.length = pool.length := by
        rw [hst]
        simp only [releaseConnection, List.length_append, List.length_cons,
          List.length_nil]
        omega
      cases r <;> simpa using hgoal

/-- C9 witness: the pool-restoration part of the amended statement at a
concrete successful upsert. -/
theorem pool_discipline_witness :
    (upsertData [0] c1Table c1Batch "test_table_id" false noFail).pool.length =
      ([0] : List Nat).length :=
  pool_discipline.2.2.2 [0] c1Table c1Batch "test_table_id" noFail

/-- C8: table creation is idempotent — after one `createTable` the table
exists, so a second identical call changes nothing — and a fresh creation
appends the sequence `<tableName>_id_seq` and a table whose first column
is the surrogate `id` primary key (defaulting to the next sequence value)
followed by the declared columns in order, collection columns as array
types.  The hypotheses say the pool holds the two connections the call
needs (`createTable` holds one while `tableExists` takes a second) and
that no database call fails. -/
theorem createTable_idempotent (pool : List Nat) (db : DBState)
    (t : String) (cols : List TableColumn) (hpool : 2 ≤ pool.length) :
    ((createTable (createTable pool db t cols false false false).pool
        (createTable pool db t cols false false false).db
        t cols false false false).db =
      (createTable pool db t cols false false false).db ∧
     (createTable (createTable pool db t cols false false false).pool
        (createTable pool db t cols false false false).db
        t cols false false false).result = .ok ()) ∧
    (db.tables.any (fun p => p.1 == t) = false →
      (createTable pool db t cols false false false).db.tables =
        db.tables ++
          [(t, ColSpec.idCol (t ++ "_id_seq") ::
             cols.map (fun col =>
               ColSpec.plain col.name
                 (mapFhirTypeToDuckDBType col.type col.tags)
                 col.collection))] ∧
      (createTable pool db t cols false false false).db.sequences =
        db.sequences ++ [t ++ "_id_seq"]) := by
  have hpop1 : ∃ c p', poolPop pool = some (c, p') := by
    cases hp : poolPop pool with
    | none =>
      exfalso
      cases pool with
      | nil => simp at hpool
      | cons x rest => exact poolPop_ne_none (x :: rest) (by simp) hp
    | some cp => exact ⟨cp.1, cp.2, by simp⟩
  obtain ⟨c, p', hp1⟩ := hpop1
  have hlen1 := poolPop_length pool c p' hp1
  have hpop2 : ∃ c2 p2, poolPop p' = some (c2, p2) := by
    cases hp : poolPop p' with
    | none =>
      exfalso
      cases p' with
      | nil =>
        simp only [List.length_nil] at hlen1
        omega
      | cons x rest => exact poolPop_ne_none (x :: rest) (by simp) hp
    | some cp => exact ⟨cp.1, cp.2, by simp⟩
  obtain ⟨c2, p2, hp2⟩ := hpop2
  -- a call from any pool that supports two pops, fully evaluated
  have hrun : ∀ (poolx : List Nat) (dbx : DBState) (cx : Nat)
      (px : List Nat) (c2x : Nat) (p2x : List Nat),
      poolPop poolx = some (cx, px) → poolPop px = some (c2x, p2x) →
      createTable poolx dbx t cols false false false =
        if dbx.tables.any (fun p => p.1 == t) then
          ⟨.ok (), releaseConnection (releaseConnection p2x c2x) cx, dbx⟩
        else
          ⟨.ok (), releaseConnection (releaseConnection p2x c2x) cx,
           { tables := dbx.tables ++
               [(t, ColSpec.idCol (t ++ "_id_seq") ::
                  cols.map (fun col =>
                    ColSpec.plain col.name
                      (mapFhirTypeToDuckDBType col.type col.tags)
                      col.collection))],
             sequences := dbx.sequences ++ [t ++ "_id_seq"] }⟩ := by
    intro poolx dbx cx px c2x p2x h1 h2
    unfold createTable getConnection tableExistsOp
    rw [h1]
    simp only [getConnection, h2]
    cases hex : dbx.tables.any (fun p => p.1 == t) <;> simp [hex]
  have hpopA : poolPop (releaseConnection (releaseConnection p2 c2) c) =
      some (c, releaseConnection p2 c2) := by
    unfold releaseConnection
    exact poolPop_append _ _
  have hpopB : poolPop (releaseConnection p2 c2) = some (c2, p2) := by
    unfold releaseConnection
    exact poolPop_append _ _
  constructor
  · -- idempotence: after the first call the table exists
    rw [hrun pool db c p' c2 p2 hp1 hp2]
    cases hex : db.tables.any (fun p => p.1 == t) with
    | true =>
      simp only [if_true]
      rw [hrun _ db c (releaseConnection p2 c2) c2 p2 hpopA hpopB]
      simp [hex]
    | false =>
      simp only [Bool.false_eq_true, if_false]
      have hex2 : (db.tables ++
          [(t, ColSpec.idCol (t ++ "_id_seq") ::
             cols.map (fun col =>
               ColSpec.plain col.name
                 (mapFhirTypeToDuckDBType col.type col.tags)
                 col.collection))]).any (fun p => p.1 == t) = true := by
        simp [List.any_append]
      rw [hrun _ _ c (releaseConnection p2 c2) c2 p2 hpopA hpopB]
      simp [hex2]
  · intro hex
    rw [hrun pool db c p' c2 p2 hp1 hp2]
    simp [hex]

/-- C8 witness: idempotent creation of a fresh one-column table from a
two-connection pool. -/
theorem createTable_idempotent_witness :
    (createTable (createTable [0, 1] c8Db "patient" c8Cols false false false).pool
        (createTable [0, 1] c8Db "patient" c8Cols false false false).db
        "patient" c8Cols false false false).db =
      (createTable [0, 1] c8Db "patient" c8Cols false false false).db ∧
    (createTable [0, 1] c8Db "patient" c8Cols false false false).db.sequences =
      ["patient_id_seq"] :=
  ⟨(createTable_idempotent [0, 1] c8Db "patient" c8Cols (by decide)).1.1,
   by
    have h := (createTable_idempotent [0, 1] c8Db "patient" c8Cols
      (by decide)).2 rfl
    rw [h.2]
    rfl⟩

/-- C1 (code-bug evaluation): `upsertData` only inserts.  Applying the
same two-row batch twice to the empty `test_table` inserts two rows each
time and leaves *four* stored rows — nothing is deleted, so the final
contents do not equal the batch — and the result object
`{inserted, updated, errors}` carries no `deleted` count at all (the
repository tests expect `result.deleted` and delete-then-insert
semantics). -/
theorem upsert_applied_twice_duplicates :
    c1First.result = .ok ⟨2, 0, 0⟩ ∧
      c1First.table.storedRows.length = 2 ∧
      c1Second.result = .ok ⟨2, 0, 0⟩ ∧
      c1Second.table.storedRows.length = 4 :=
  ⟨rfl, rfl, rfl, rfl⟩

end FCView
